import Mathlib

/-!
# CN24: Tensor addressing and the confusion-matrix layer

A shallow embedding of `Tensor::Offset` (include/cn24/util/Tensor.h) and of
`ConfusionMatrixLayer` (src/net/ConfusionMatrixLayer.cpp).

Conventions of the embedding:

* machine integers are natural numbers reduced explicitly: `std::size_t`
  arithmetic modulo `SIZE_MOD`, `unsigned int` arithmetic modulo `UINT_MOD`;
* a pointer is an `Option` (`none` is `nullptr`), an allocated block is a list;
* a computation that can stop abnormally returns `Except Fault`;
* `long double` accumulators are exact rationals, and a division by zero has
  no value;
* what `Print` writes is kept as the fields of each line, before `setw(12)`
  pads them.
-/

namespace Conv

/-! ## Machine arithmetic -/

/-- Modulus of `std::size_t` arithmetic (64-bit target). -/
def SIZE_MOD : Nat := 2 ^ 64

/-- Modulus of `unsigned int` arithmetic (32 bits). -/
def UINT_MOD : Nat := 2 ^ 32

/-- Product of two `std::size_t` values. -/
def mulSz (a b : Nat) : Nat := (a * b) % SIZE_MOD

/-- Sum of two `std::size_t` values. -/
def addSz (a b : Nat) : Nat := (a + b) % SIZE_MOD

/-- Product of two `unsigned int` values. -/
def mulU (a b : Nat) : Nat := (a * b) % UINT_MOD

/-- Sum of two `unsigned int` values. -/
def addU (a b : Nat) : Nat := (a + b) % UINT_MOD

/-- Ways in which a call can fail to return normally. -/
inductive Fault where
  /-- The macro `FATAL(...)` fired by a `TENSORDEBUG` check. -/
  | fatal
  /-- A null pointer is dereferenced. -/
  | nullDeref
  /-- An access outside the allocated block. -/
  | outOfBounds
  /-- A loop whose exit condition never becomes true. -/
  | diverges
  deriving DecidableEq, Repr

deriving instance DecidableEq for Except

/-! ## Tensor -/

/-- One storage cell of a Tensor. The cell holds a `datum`; the same bytes can
be read through a `const duint*`, so the cell carries both readings: `val` is
the number stored, `bits` the unsigned integer the bytes spell. -/
structure Datum where
  val : ℚ
  bits : Nat
  deriving DecidableEq, Repr

/-- The fields of `Tensor` that the modelled member functions read. -/
structure Tensor where
  data_ptr_ : Option (List Datum)
  samples_ : Nat
  maps_ : Nat
  height_ : Nat
  width_ : Nat
  elements_ : Nat
  deriving DecidableEq, Repr

namespace Tensor

/-- The accessor `Tensor::samples()`. -/
def samples (t : Tensor) : Nat := t.samples_

/-- The accessor `Tensor::elements()`. -/
def elements (t : Tensor) : Nat := t.elements_

/-- The range test `Offset` performs under `TENSORDEBUG`
(Tensor.h line 126). -/
def outOfRange (t : Tensor) (x y map sample : Nat) : Bool :=
  decide (x ≥ t.width_) || decide (y ≥ t.height_) || decide (map ≥ t.maps_) ||
    decide (sample ≥ t.samples_)

/-- The function `Tensor::Offset` (Tensor.h lines 122-136). `tensordebug` tells whether the
file is compiled with `TENSORDEBUG`. The returned expression is evaluated in
`std::size_t`, left to right as C++ parses it. -/
def Offset (tensordebug : Bool) (t : Tensor) (x y map sample : Nat) :
    Except Fault Nat :=
  if tensordebug && t.outOfRange x y map sample then
    .error Fault.fatal
  else
    .ok (addSz
          (addSz
            (addSz (mulSz (mulSz (mulSz sample t.maps_) t.width_) t.height_)
              (mulSz (mulSz map t.width_) t.height_))
            (mulSz y t.width_))
          x)

/-- The layout formula over the integers, without reduction. -/
def layout (t : Tensor) (x y map sample : Nat) : Nat :=
  sample * t.maps_ * t.height_ * t.width_ + map * t.height_ * t.width_ +
    y * t.width_ + x

/-- The index tuples `Offset` accepts under `TENSORDEBUG`. -/
def InRange (t : Tensor) (x y map sample : Nat) : Prop :=
  x < t.width_ ∧ y < t.height_ ∧ map < t.maps_ ∧ sample < t.samples_

instance (t : Tensor) (x y map sample : Nat) : Decidable (t.InRange x y map sample) := by
  unfold InRange; infer_instance


/-- The function `Tensor::data_ptr_const(x, y, map, sample)` (Tensor.h lines 228-232):
the address `&data_ptr_[Offset(x, y, map, sample)]`, given as the element
number it points at. -/
def data_ptr_const (tensordebug : Bool) (t : Tensor) (x y map sample : Nat) :
    Except Fault Nat :=
  t.Offset tensordebug x y map sample

/-- Reading `* (const duint*) p` where `p` points at element `addr` of the
storage: the unsigned integer held there. `duint` (a typedef of Config.h) is
taken as a 32-bit unsigned integer, the width of `unsigned int`. -/
def readDuint (t : Tensor) (addr : Nat) : Except Fault Nat :=
  match t.data_ptr_ with
  | none => .error Fault.nullDeref
  | some d =>
    match d[addr]? with
    | some c => .ok (c.bits % UINT_MOD)
    | none => .error Fault.outOfBounds

/-- The operator `Tensor::operator()` (Tensor.h lines 252-262): the element with the given
number. The two `TENSORDEBUG` tests come first; the access itself is
unchecked. -/
def elementAt (tensordebug : Bool) (t : Tensor) (element : Nat) :
    Except Fault Datum :=
  if tensordebug && t.data_ptr_.isNone then
    .error Fault.fatal
  else if tensordebug && decide (element > t.elements_) then
    .error Fault.fatal
  else
    match t.data_ptr_ with
    | none => .error Fault.nullDeref
    | some d =>
      match d[element]? with
      | some c => .ok c
      | none => .error Fault.outOfBounds

/-- First position of the greatest value: `best` is the position of the
greatest value seen so far, `bestVal` that value, `idx` the position of the
head of the list. -/
def argmaxFrom : List ℚ → Nat → Nat → ℚ → Nat
  | [], _, best, _ => best
  | v :: rest, idx, best, bestVal =>
    if v > bestVal then argmaxFrom rest (idx + 1) idx v
    else argmaxFrom rest (idx + 1) best bestVal

/-- First position of the greatest value of a list (0 for the empty list). -/
def argmax : List ℚ → Nat
  | [] => 0
  | v :: rest => argmaxFrom rest 1 0 v

/-- Modelled from the spec: `Tensor::Maximum(sample)`, which Tensor.h declares
(line 195) and whose body is in Tensor.cpp. It "returns the linear index,
within the one sample's sub-range, of the maximum-valued element", "ties
resolved to the first occurrence in linear order". The sub-range of a sample
is its `maps * height * width` consecutive elements. -/
def Maximum (t : Tensor) (sample : Nat) : Except Fault Nat :=
  match t.data_ptr_ with
  | none => .error Fault.nullDeref
  | some d =>
    let per := t.maps_ * t.height_ * t.width_
    let range := (d.drop (sample * per)).take per
    if range.length < per then .error Fault.outOfBounds
    else .ok (argmax (range.map Datum.val))

end Tensor

/-! ## ConfusionMatrixLayer -/

/-- Modelled from the spec: `CombinedTensor`, the "thin aggregate of two
Tensors — data and gradient — sharing a shape" (its header is
CombinedTensor.h). -/
structure CombinedTensor where
  data : Tensor
  delta : Tensor
  deriving DecidableEq, Repr

/-- The members `ConfusionMatrixLayer.cpp` uses. `classes_` is the
`unsigned int` class count given to the constructor, `first_`, `second_`,
`third_` are the bound inputs, `matrix_` and `per_class_` the two allocated
blocks. -/
structure ConfusionMatrixLayer where
  classes_ : Nat
  names_ : List String
  disabled_ : Bool
  first_ : Option CombinedTensor
  second_ : Option CombinedTensor
  third_ : Option CombinedTensor
  matrix_ : Option (List ℚ)
  per_class_ : Option (List ℚ)
  total_ : ℚ
  right_ : ℚ
  deriving DecidableEq, Repr

/-- A `for (unsigned int i = start; ...; i++)` loop of `count` rounds whose
body may fault. -/
def forLoop {σ : Type} (body : Nat → σ → Except Fault σ) :
    Nat → Nat → σ → Except Fault σ
  | 0, _, s => .ok s
  | count + 1, i, s =>
    match body i s with
    | .ok s' => forLoop body count (i + 1) s'
    | .error e => .error e

/-- The value `block[i]` of an allocated block. -/
def loadAt (block : Option (List ℚ)) (i : Nat) : Except Fault ℚ :=
  match block with
  | none => .error Fault.nullDeref
  | some a =>
    match a[i]? with
    | some v => .ok v
    | none => .error Fault.outOfBounds

/-- The assignment `block[i] = v`. -/
def storeAt (block : Option (List ℚ)) (i : Nat) (v : ℚ) :
    Except Fault (List ℚ) :=
  match block with
  | none => .error Fault.nullDeref
  | some a => if i < a.length then .ok (a.set i v) else .error Fault.outOfBounds

/-- The update `block[i] += w`. -/
def addAt (block : Option (List ℚ)) (i : Nat) (w : ℚ) : Except Fault (List ℚ) :=
  match loadAt block i with
  | .ok v => storeAt block i (v + w)
  | .error e => .error e

/-- The access `names_[c]` on the vector of class names. -/
def nameAt (names : List String) (c : Nat) : Except Fault String :=
  match names[c]? with
  | some s => .ok s
  | none => .error Fault.outOfBounds

/-- The allocation `new long double[n]`: a fresh block of `n` cells whose contents are
whatever the store held (`uninit`). -/
def newBlock (uninit : Nat → ℚ) (n : Nat) : List ℚ :=
  (List.range n).map uninit

namespace ConfusionMatrixLayer

/-- The function `ConfusionMatrixLayer::CreateOutputs` (lines 20-56). The result carries
the outputs vector and the layer after the call next to the returned flag. -/
def CreateOutputs (L : ConfusionMatrixLayer) (inputs : List (Option CombinedTensor))
    (outputs : List (Option CombinedTensor)) :
    Bool × List (Option CombinedTensor) × ConfusionMatrixLayer :=
  match inputs with
  | [first, second, third] =>
    match first, second, third with
    | some first, some second, some third =>
      if first.data.samples ≠ second.data.samples then (false, outputs, L)
      else if second.data.elements ≠ second.data.samples then (false, outputs, L)
      else if first.data.samples ≠ third.data.samples then (false, outputs, L)
      else (true, outputs, L)
    | _, _, _ => (false, outputs, L)
  | _ => (false, outputs, L)

/-- The function `ConfusionMatrixLayer::Reset` (lines 110-119). -/
def Reset (L : ConfusionMatrixLayer) : Except Fault ConfusionMatrixLayer :=
  match forLoop
      (fun c (M : ConfusionMatrixLayer) =>
        match storeAt M.matrix_ c 0 with
        | .ok m => .ok { M with matrix_ := some m }
        | .error e => .error e)
      (mulU L.classes_ L.classes_) 0 L with
  | .error e => .error e
  | .ok L1 =>
    match forLoop
        (fun c (M : ConfusionMatrixLayer) =>
          match storeAt M.per_class_ c 0 with
          | .ok p => .ok { M with per_class_ := some p }
          | .error e => .error e)
        L1.classes_ 0 L1 with
    | .error e => .error e
    | .ok L2 => .ok { L2 with total_ := 0, right_ := 0 }

/-- The initialiser of `valid` in `Connect` (lines 70-73), with the
left-to-right short-circuit evaluation of `&&`. -/
def valid (first second third : Option CombinedTensor)
    (outputs : List (Option CombinedTensor)) : Except Fault Bool :=
  match first with
  | none => .ok false
  | some f =>
    match second with
    | none => .ok false
    | some s =>
      if f.data.samples = s.data.samples then
        match third with
        | none => .error Fault.nullDeref
        | some t =>
          .ok (decide (f.data.samples = t.data.samples) && decide (outputs.length = 0))
      else .ok false

/-- The function `ConfusionMatrixLayer::Connect` (lines 58-87). `uninit` gives the contents
of freshly allocated cells. -/
def Connect (uninit : Nat → ℚ) (L : ConfusionMatrixLayer)
    (inputs : List (Option CombinedTensor)) (outputs : List (Option CombinedTensor)) :
    Except Fault (Bool × ConfusionMatrixLayer) :=
  match inputs with
  | [first, second, third] =>
    match valid first second third outputs with
    | .error e => .error e
    | .ok false => .ok (false, L)
    | .ok true =>
      match Reset { L with
          first_ := first, second_ := second, third_ := third,
          matrix_ := some (newBlock uninit (mulU L.classes_ L.classes_)),
          per_class_ := some (newBlock uninit L.classes_) } with
      | .error e => .error e
      | .ok L' => .ok (true, L')
  | _ => .ok (false, L)

/-- What one round of the loop of `FeedForward` reads (lines 94-96). -/
structure Reading where
  first_class : Nat
  second_class : Nat
  weight : ℚ
  deriving DecidableEq, Repr

/-- The three reads of one round of `FeedForward` (lines 94-96). -/
def readSample (tensordebug : Bool) (L : ConfusionMatrixLayer) (sample : Nat) :
    Except Fault Reading :=
  match L.first_ with
  | none => .error Fault.nullDeref
  | some first =>
    match first.data.Maximum sample with
    | .error e => .error e
    | .ok mx =>
      match L.second_ with
      | none => .error Fault.nullDeref
      | some second =>
        match second.data.data_ptr_const tensordebug sample 0 0 0 with
        | .error e => .error e
        | .ok addr =>
          match second.data.readDuint addr with
          | .error e => .error e
          | .ok second_class =>
            match L.third_ with
            | none => .error Fault.nullDeref
            | some third =>
              match third.data.elementAt tensordebug sample with
              | .error e => .error e
              | .ok w =>
                .ok { first_class := mx % UINT_MOD, second_class := second_class,
                      weight := w.val }

/-- The four updates of one round of `FeedForward` (lines 97-101). -/
def accumulate (L : ConfusionMatrixLayer) (r : Reading) :
    Except Fault ConfusionMatrixLayer :=
  match addAt L.matrix_ (addU (mulU r.first_class L.classes_) r.second_class) r.weight with
  | .error e => .error e
  | .ok m =>
    match addAt L.per_class_ r.second_class r.weight with
    | .error e => .error e
    | .ok p =>
      .ok { L with
        matrix_ := some m, per_class_ := some p,
        total_ := L.total_ + r.weight,
        right_ := if r.first_class = r.second_class then L.right_ + r.weight
                  else L.right_ }

/-- One round of the loop of `FeedForward` (lines 94-101). -/
def feedSample (tensordebug : Bool) (sample : Nat) (L : ConfusionMatrixLayer) :
    Except Fault ConfusionMatrixLayer :=
  match readSample tensordebug L sample with
  | .error e => .error e
  | .ok r => accumulate L r

/-- The function `ConfusionMatrixLayer::FeedForward` (lines 89-103). The counter `sample`
is an `unsigned int` compared with a `std::size_t`: with `UINT_MOD` samples or
more it wraps before reaching the bound, and the loop does not end. -/
def FeedForward (tensordebug : Bool) (L : ConfusionMatrixLayer) :
    Except Fault ConfusionMatrixLayer :=
  if L.disabled_ then .ok L
  else
    match L.first_ with
    | none => .error Fault.nullDeref
    | some first =>
      match forLoop (feedSample tensordebug) (min first.data.samples UINT_MOD) 0 L with
      | .error e => .error e
      | .ok L' =>
        if first.data.samples < UINT_MOD then .ok L' else .error Fault.diverges

/-- The least value of a `long` (64 bits, as on the LP64 targets). -/
def LONG_MIN : Int := -9223372036854775808

/-- The greatest value of a `long` (64 bits, as on the LP64 targets). -/
def LONG_MAX : Int := 9223372036854775807

/-- The number with its fractional part discarded (rounded toward zero). -/
def truncate (q : ℚ) : Int :=
  if q < 0 then -((-q).floor) else q.floor

/-- The conversion `static_cast<long>(result)` of a `long double` (lines 135
and 177): the fractional part is discarded. When the truncated value is not a
value of `long` the language leaves the result undefined; the conversion
instruction of the x86-64 target then delivers `LONG_MIN`, and that is the
value taken here. -/
def toLong (q : ℚ) : Int :=
  if LONG_MIN ≤ truncate q ∧ truncate q ≤ LONG_MAX then truncate q else LONG_MIN

/-- A `long double` quotient; `none` when the divisor is zero (the result is
then not a finite number). -/
def fdiv (a b : ℚ) : Option ℚ :=
  if b = 0 then none else some (a / b)

/-- What `Print` writes. `caption` is the header line and every entry of
`rows` one table line, each as its `setw(12)` fields in order; `overall` and
`average` are the two summary lines, each as the text before the number and
the number. -/
structure Report where
  caption : List String
  rows : List (String × List Int)
  overall : String × Option ℚ
  average : String × Option ℚ
  deriving DecidableEq, Repr

/-- The header line of `Print` (lines 123-126). -/
def printCaption (L : ConfusionMatrixLayer) : Except Fault (List String) :=
  forLoop
    (fun c (acc : List String) =>
      match nameAt L.names_ c with
      | .ok s => .ok (acc ++ [s])
      | .error e => .error e)
    L.classes_ 0 ["vCLS  ACT>"]

/-- One table line of `Print` (lines 132-136). -/
def printRow (L : ConfusionMatrixLayer) (t : Nat) : Except Fault (String × List Int) :=
  match nameAt L.names_ t with
  | .error e => .error e
  | .ok name =>
    match forLoop
        (fun c (acc : List Int) =>
          match loadAt L.matrix_ (addU (mulU t L.classes_) c) with
          | .ok result => .ok (acc ++ [toLong result])
          | .error e => .error e)
        L.classes_ 0 [] with
    | .error e => .error e
    | .ok cells => .ok (name, cells)

/-- The table lines of `Print` (lines 131-140). -/
def printRows (L : ConfusionMatrixLayer) : Except Fault (List (String × List Int)) :=
  forLoop
    (fun t (acc : List (String × List Int)) =>
      match printRow L t with
      | .ok row => .ok (acc ++ [row])
      | .error e => .error e)
    L.classes_ 0 []

/-- The loop of `Print` that fills `sum` and `ccount` (lines 146-153); the
state is the pair `(sum, ccount)`. -/
def rateLoop (L : ConfusionMatrixLayer) : Except Fault (ℚ × ℚ) :=
  forLoop
    (fun c (acc : ℚ × ℚ) =>
      match loadAt L.per_class_ c with
      | .error e => .error e
      | .ok pc =>
        if pc > 0 then
          match loadAt L.matrix_ (addU (mulU c L.classes_) c) with
          | .error e => .error e
          | .ok d => .ok (acc.1 + d / pc, acc.2 + 1)
        else .ok acc)
    L.classes_ 0 (0, 0)

/-- The function `ConfusionMatrixLayer::Print` (lines 121-159). -/
def Print (L : ConfusionMatrixLayer) (pfx : String) (_training : Bool) :
    Except Fault Report :=
  match printCaption L with
  | .error e => .error e
  | .ok caption =>
    match printRows L with
    | .error e => .error e
    | .ok rows =>
      match rateLoop L with
      | .error e => .error e
      | .ok (sum, ccount) =>
        .ok { caption := caption, rows := rows,
              overall := (pfx ++ " Overall recognition rate (not normalized): ",
                          fdiv (100 * L.right_) L.total_),
              average := (pfx ++ " Average recognition rate (normalized)    : ",
                          fdiv (100 * sum) ccount) }

/-- The cell `matrix_[(p * classes_) + t]`, addressed as `FeedForward` does. -/
def cell (L : ConfusionMatrixLayer) (p t : Nat) : Except Fault ℚ :=
  loadAt L.matrix_ (addU (mulU p L.classes_) t)

/-- The cell `per_class_[c]`. -/
def perClass (L : ConfusionMatrixLayer) (c : Nat) : Except Fault ℚ :=
  loadAt L.per_class_ c

/-- A layer as a successful `Connect` leaves its two blocks: allocated, of
`classes_ * classes_` (an `unsigned int` product) and `classes_` cells. -/
def Allocated (L : ConfusionMatrixLayer) : Prop :=
  (∃ m, L.matrix_ = some m ∧ m.length = mulU L.classes_ L.classes_) ∧
  (∃ p, L.per_class_ = some p ∧ p.length = L.classes_)

/-- The value of the cell `matrix_[(p * classes_) + t]` (0 if there is no
such cell). -/
def matrixVal (L : ConfusionMatrixLayer) (p t : Nat) : ℚ :=
  match cell L p t with
  | .ok v => v
  | .error _ => 0

/-- The value of the cell `per_class_[c]` (0 if there is no such cell). -/
def perClassVal (L : ConfusionMatrixLayer) (c : Nat) : ℚ :=
  match perClass L c with
  | .ok v => v
  | .error _ => 0

/-- The text `Print` puts at the head of row `r`. -/
def Report.rowLabel (rep : Report) (r : Nat) : Option String :=
  (rep.rows[r]?).map (fun row => row.1)

/-- The text `Print` puts at the head of column `c` (field 0 of the caption is
the corner text). -/
def Report.columnLabel (rep : Report) (c : Nat) : Option String :=
  rep.caption[c + 1]?

/-- The number `Print` shows in row `r`, column `c`. -/
def Report.shown (rep : Report) (r c : Nat) : Option Int :=
  (rep.rows[r]?).bind (fun row => row.2[c]?)

/-- The classes whose per-class total satisfies `keep`. -/
def keptClasses (keep : ℚ → Bool) (L : ConfusionMatrixLayer) : List Nat :=
  (List.range L.classes_).filter (fun c => keep (perClassVal L c))

/-- The normalized rate in the words of the specification: 100 times the mean,
over the classes whose per-class total satisfies `keep`, of the diagonal cell
divided by the per-class total; undefined when there is no such class. -/
def meanRate (keep : ℚ → Bool) (L : ConfusionMatrixLayer) : Option ℚ :=
  if (keptClasses keep L).length = 0 then none
  else some (100 * (1 / ((keptClasses keep L).length : ℚ)) *
    ((keptClasses keep L).map (fun c => matrixVal L c c / perClassVal L c)).sum)

/-- The unnormalized rate in the words of the specification:
`100 * right / total`, undefined when the total is zero. -/
def overallRate (L : ConfusionMatrixLayer) : Option ℚ :=
  if L.total_ = 0 then none else some (100 * L.right_ / L.total_)

/-- The rounds of `FeedForward` (lines 97-101) on readings already taken. -/
def feedAll (L : ConfusionMatrixLayer) : List Reading → Except Fault ConfusionMatrixLayer
  | [] => .ok L
  | r :: rest =>
    match accumulate L r with
    | .ok L' => feedAll L' rest
    | .error e => .error e

/-- Sum of the weights of the readings that satisfy `keep`. -/
def weightSum (keep : Reading → Bool) (batch : List Reading) : ℚ :=
  ((batch.filter keep).map Reading.weight).sum

end ConfusionMatrixLayer

/-! ## Concrete tensors and layers -/

/-- A storage cell written as a number; its other reading is not used. -/
def Datum.ofVal (v : ℚ) : Datum := { val := v, bits := 0 }

/-- A storage cell written as a class number; its other reading is not used. -/
def Datum.ofBits (u : Nat) : Datum := { val := 0, bits := u }

/-- The Tensor of the given samples and maps, of height 1 and width 1, over
the given cells. -/
def Tensor.ofCells (samples maps : Nat) (cells : List Datum) : Tensor :=
  { data_ptr_ := some cells, samples_ := samples, maps_ := maps, height_ := 1,
    width_ := 1, elements_ := samples * maps }

/-- The CombinedTensor whose data Tensor is `t`. -/
def CombinedTensor.ofData (t : Tensor) : CombinedTensor := { data := t, delta := t }

/-- A Tensor of shape 2 x 2 x 2 x 2 without storage. -/
def shape2222 : Tensor :=
  { data_ptr_ := none, samples_ := 2, maps_ := 2, height_ := 2, width_ := 2, elements_ := 16 }

/-- A Tensor of one element. -/
def unitTensor : Tensor := Tensor.ofCells 1 1 [Datum.ofVal 0]

/-- Scores of two samples over two classes: the first sample is highest on
class 0, the second on class 1. -/
def scoresTwo : CombinedTensor :=
  CombinedTensor.ofData (Tensor.ofCells 2 2
    [Datum.ofVal 1, Datum.ofVal 0, Datum.ofVal 0, Datum.ofVal 1])

/-- Labels of two samples: both of class 1. -/
def labelsTwo : CombinedTensor :=
  CombinedTensor.ofData (Tensor.ofCells 2 1 [Datum.ofBits 1, Datum.ofBits 1])

/-- Weights of two samples: 2 and 1. -/
def weightsTwo : CombinedTensor :=
  CombinedTensor.ofData (Tensor.ofCells 2 1 [Datum.ofVal 2, Datum.ofVal 1])

/-- Scores of one sample over three classes, highest on class 2. -/
def scoresThree : CombinedTensor :=
  CombinedTensor.ofData (Tensor.ofCells 1 3 [Datum.ofVal 0, Datum.ofVal 0, Datum.ofVal 1])

/-- Label of one sample: class 2. -/
def labelsThree : CombinedTensor :=
  CombinedTensor.ofData (Tensor.ofCells 1 1 [Datum.ofBits 2])

/-- Scores of one sample over one class. -/
def scoresOne : CombinedTensor :=
  CombinedTensor.ofData (Tensor.ofCells 1 1 [Datum.ofVal 1])

/-- Label of one sample: class 0. -/
def labelsOne : CombinedTensor :=
  CombinedTensor.ofData (Tensor.ofCells 1 1 [Datum.ofBits 0])

/-- Weight of one sample: 1. -/
def weightsOne : CombinedTensor :=
  CombinedTensor.ofData (Tensor.ofCells 1 1 [Datum.ofVal 1])

/-- Weight of one sample: -1. -/
def weightsMinus : CombinedTensor :=
  CombinedTensor.ofData (Tensor.ofCells 1 1 [Datum.ofVal (-1)])

/-- Weight of one sample: `2^63`, one more than the greatest `long`. -/
def weightsHuge : CombinedTensor :=
  CombinedTensor.ofData (Tensor.ofCells 1 1 [Datum.ofVal 9223372036854775808])

namespace ConfusionMatrixLayer

/-- A layer as constructed: class count and names set, nothing bound, nothing
allocated. -/
def fresh (names : List String) (classes : Nat) : ConfusionMatrixLayer :=
  { classes_ := classes, names_ := names, disabled_ := false,
    first_ := none, second_ := none, third_ := none,
    matrix_ := none, per_class_ := none, total_ := 0, right_ := 0 }

/-- The layer a successful `Connect` of `fresh names classes` to the three
inputs leaves. -/
def bound (names : List String) (classes : Nat) (a b c : CombinedTensor) :
    ConfusionMatrixLayer :=
  { fresh names classes with
    first_ := some a, second_ := some b, third_ := some c,
    matrix_ := some (List.replicate (mulU classes classes) 0),
    per_class_ := some (List.replicate classes 0) }

/-- A bound 2-class layer in the zero state. -/
def twoClass : ConfusionMatrixLayer :=
  bound ["a", "b"] 2 scoresTwo labelsTwo weightsTwo

/-- A bound 3-class layer in the zero state. -/
def threeClass : ConfusionMatrixLayer :=
  bound ["a", "b", "c"] 3 scoresThree labelsThree weightsOne

/-- The 2-class layer after its two samples. -/
def twoClassFed : ConfusionMatrixLayer :=
  { twoClass with
    matrix_ := some [0, 2, 0, 1], per_class_ := some [0, 3], total_ := 3, right_ := 1 }

/-- The 3-class layer after its sample. -/
def threeClassFed : ConfusionMatrixLayer :=
  { threeClass with
    matrix_ := some [0, 0, 0, 0, 0, 0, 0, 0, 1], per_class_ := some [0, 0, 1],
    total_ := 1, right_ := 1 }

/-- A bound 1-class layer in the zero state whose sample has weight -1. -/
def oneClassMinus : ConfusionMatrixLayer :=
  bound ["a"] 1 scoresOne labelsOne weightsMinus

/-- The 1-class layer after its sample of weight -1. -/
def oneClassMinusFed : ConfusionMatrixLayer :=
  { oneClassMinus with
    matrix_ := some [-1], per_class_ := some [-1], total_ := -1, right_ := -1 }

/-- A bound layer of 65536 classes in the zero state. -/
def wideClass : ConfusionMatrixLayer :=
  bound (List.replicate 65536 "c") 65536 scoresOne labelsOne weightsOne

/-- A bound 1-class layer in the zero state whose sample has weight `2^63`. -/
def oneClassHuge : ConfusionMatrixLayer :=
  bound ["a"] 1 scoresOne labelsOne weightsHuge

/-- The 1-class layer after its sample of weight `2^63`. -/
def oneClassHugeFed : ConfusionMatrixLayer :=
  { oneClassHuge with
    matrix_ := some [9223372036854775808], per_class_ := some [9223372036854775808],
    total_ := 9223372036854775808, right_ := 9223372036854775808 }

end ConfusionMatrixLayer

/-! ## Further members -/

/-- The operator `Tensor::operator[]` (Tensor.h lines 237-247): the element
with the given number. Its body is that of `operator()`: the two `TENSORDEBUG`
tests, then the unchecked access. -/
def Tensor.subscript (tensordebug : Bool) (t : Tensor) (element : Nat) :
    Except Fault Datum :=
  if tensordebug && t.data_ptr_.isNone then
    .error Fault.fatal
  else if tensordebug && decide (element > t.elements_) then
    .error Fault.fatal
  else
    match t.data_ptr_ with
    | none => .error Fault.nullDeref
    | some d =>
      match d[element]? with
      | some c => .ok c
      | none => .error Fault.outOfBounds

/-- The function `ConfusionMatrixLayer::BackPropagate` (lines 105-107): an
empty body. -/
def ConfusionMatrixLayer.BackPropagate (L : ConfusionMatrixLayer) : ConfusionMatrixLayer :=
  L

/-- The 2-class layer after its two samples, disabled. -/
def ConfusionMatrixLayer.twoClassDisabled : ConfusionMatrixLayer :=
  { ConfusionMatrixLayer.twoClassFed with disabled_ := true }

/-- A 2-class layer bound, in the zero state, to inputs whose one sample has
predicted class 2 and label 2. -/
def ConfusionMatrixLayer.twoClassOver : ConfusionMatrixLayer :=
  ConfusionMatrixLayer.bound ["a", "b"] 2 scoresThree labelsThree weightsOne

namespace ConfusionMatrixLayer

/-- The header line of `PrintCSV` (lines 163-169): what `csv_caption` holds
after the loop. -/
def csvCaption (L : ConfusionMatrixLayer) : Except Fault String :=
  forLoop
    (fun c (acc : String) =>
      match nameAt L.names_ c with
      | .ok s => .ok (if addU c 1 < L.classes_ then acc ++ s ++ "," else acc ++ s)
      | .error e => .error e)
    L.classes_ 0 "classified,"

/-- One table line of `PrintCSV` (lines 174-180): what `csv_line` holds after
the inner loop. -/
def csvLine (L : ConfusionMatrixLayer) (t : Nat) : Except Fault String :=
  match nameAt L.names_ t with
  | .error e => .error e
  | .ok name =>
    forLoop
      (fun c (acc : String) =>
        match loadAt L.matrix_ (addU (mulU t L.classes_) c) with
        | .ok result =>
          .ok (if addU c 1 < L.classes_ then acc ++ toString (toLong result) ++ ","
               else acc ++ toString (toLong result))
        | .error e => .error e)
      L.classes_ 0 (name ++ ",")

/-- The table lines of `PrintCSV` (lines 173-183), in the order written. -/
def csvLines (L : ConfusionMatrixLayer) : Except Fault (List String) :=
  forLoop
    (fun t (acc : List String) =>
      match csvLine L t with
      | .ok line => .ok (acc ++ [line])
      | .error e => .error e)
    L.classes_ 0 []

/-- The function `ConfusionMatrixLayer::PrintCSV` (lines 161-184): the lines
written to the stream, each ended by `std::endl`, in order. -/
def PrintCSV (L : ConfusionMatrixLayer) : Except Fault (List String) :=
  match csvCaption L with
  | .error e => .error e
  | .ok caption =>
    match csvLines L with
    | .error e => .error e
    | .ok lines => .ok (caption :: lines)

end ConfusionMatrixLayer

/-! ## Sequences of calls -/

namespace ConfusionMatrixLayer

/-- The bound tensors receive new contents. The layer holds pointers to its
three inputs and the network writes the next batch into them between two
forward passes; in this embedding the three members change value. -/
def refill (L : ConfusionMatrixLayer) (a b c : CombinedTensor) : ConfusionMatrixLayer :=
  { L with first_ := some a, second_ := some b, third_ := some c }

/-- The three tensors hold the batch: the first has as many samples as the
batch has readings, and the reads of `FeedForward` on sample `s` return
reading `s` of the batch. -/
def Holds (tensordebug : Bool) (a b c : CombinedTensor) (batch : List Reading) : Prop :=
  a.data.samples = batch.length ∧
  ∀ (L : ConfusionMatrixLayer) (s : Nat) (h : s < batch.length),
    readSample tensordebug (refill L a b c) s = .ok batch[s]

/-- The states reachable from a successful `Connect` by `Reset` and by enabled
`FeedForward` calls on batches whose predicted classes and labels are below
the class count and whose readings satisfy `extra`. -/
inductive Reachable (tensordebug : Bool) (extra : Reading → Prop) :
    ConfusionMatrixLayer → Prop where
  | connect (uninit : Nat → ℚ) (L M : ConfusionMatrixLayer)
      (inputs outputs : List (Option CombinedTensor)) :
      Connect uninit L inputs outputs = .ok (true, M) →
      Reachable tensordebug extra M
  | reset (L M : ConfusionMatrixLayer) :
      Reachable tensordebug extra L → Reset L = .ok M →
      Reachable tensordebug extra M
  | feed (L M : ConfusionMatrixLayer) (a b c : CombinedTensor) (batch : List Reading) :
      Reachable tensordebug extra L → L.disabled_ = false →
      Holds tensordebug a b c batch →
      (∀ r ∈ batch, r.first_class < L.classes_ ∧ r.second_class < L.classes_ ∧ extra r) →
      FeedForward tensordebug (refill L a b c) = .ok M →
      Reachable tensordebug extra M

/-- The consistency of the accumulators: the total is the sum of the
per-class totals and the sum of all matrix cells, every per-class total is the
sum of its column of the matrix, and the correct total is the sum of the
diagonal. -/
def Consistent (L : ConfusionMatrixLayer) : Prop :=
  L.total_ = ∑ c ∈ Finset.range L.classes_, perClassVal L c ∧
  L.total_ = ∑ p ∈ Finset.range L.classes_, ∑ t ∈ Finset.range L.classes_,
    matrixVal L p t ∧
  (∀ t, t < L.classes_ →
    perClassVal L t = ∑ p ∈ Finset.range L.classes_, matrixVal L p t) ∧
  L.right_ = ∑ c ∈ Finset.range L.classes_, matrixVal L c c

/-- No matrix cell is negative. -/
def NonNegative (L : ConfusionMatrixLayer) : Prop :=
  ∀ p t, p < L.classes_ → t < L.classes_ → 0 ≤ matrixVal L p t

end ConfusionMatrixLayer

/-- Scores of one sample over `n + 1` classes, highest on the last class. -/
def scoresLast (n : Nat) : CombinedTensor :=
  CombinedTensor.ofData (Tensor.ofCells 1 (n + 1)
    (List.replicate n (Datum.ofVal 0) ++ [Datum.ofVal 1]))

/-- Scores of two samples over one class. -/
def scoresPair : CombinedTensor :=
  CombinedTensor.ofData (Tensor.ofCells 2 1 [Datum.ofVal 1, Datum.ofVal 1])

/-- Labels of two samples: both of class 0. -/
def labelsPair : CombinedTensor :=
  CombinedTensor.ofData (Tensor.ofCells 2 1 [Datum.ofBits 0, Datum.ofBits 0])

/-- Weights of two samples: 1 and 1. -/
def weightsPair : CombinedTensor :=
  CombinedTensor.ofData (Tensor.ofCells 2 1 [Datum.ofVal 1, Datum.ofVal 1])

/-- A bound layer of 65537 classes in the zero state, whose one sample has
predicted class 65536, label 2 and weight 1. -/
def ConfusionMatrixLayer.aliasClass : ConfusionMatrixLayer :=
  ConfusionMatrixLayer.bound (List.replicate 65537 "c") 65537
    (scoresLast 65536) labelsThree weightsOne

/-! ## Lemmas on `Offset` -/

theorem Tensor.outOfRange_eq_false_iff (t : Tensor) (x y map sample : Nat) :
    t.outOfRange x y map sample = false ↔ t.InRange x y map sample := by
  simp [Tensor.outOfRange, Tensor.InRange, and_assoc]

theorem Tensor.outOfRange_eq_true_iff (t : Tensor) (x y map sample : Nat) :
    t.outOfRange x y map sample = true ↔
      (x ≥ t.width_ ∨ y ≥ t.height_ ∨ map ≥ t.maps_ ∨ sample ≥ t.samples_) := by
  simp [Tensor.outOfRange, or_assoc]

/-- The wrapped expression of `Offset` is the layout formula modulo the word
size. -/
theorem Tensor.wrapped_eq_layout_mod (t : Tensor) (x y map sample : Nat) :
    addSz
        (addSz
          (addSz (mulSz (mulSz (mulSz sample t.maps_) t.width_) t.height_)
            (mulSz (mulSz map t.width_) t.height_))
          (mulSz y t.width_))
        x = t.layout x y map sample % SIZE_MOD := by
  simp only [addSz, mulSz, Tensor.layout]
  have e1 : sample * t.maps_ * t.height_ * t.width_
      = sample * t.maps_ * t.width_ * t.height_ := by ring
  have e2 : map * t.height_ * t.width_ = map * t.width_ * t.height_ := by ring
  rw [e1, e2]
  simp [Nat.add_mod, Nat.mul_mod]

/-- In range, the layout formula stays below the element count. -/
theorem Tensor.layout_lt (t : Tensor) (x y map sample : Nat)
    (h : t.InRange x y map sample) :
    t.layout x y map sample < t.samples_ * t.maps_ * t.height_ * t.width_ := by
  obtain ⟨hx, hy, hm, hs⟩ := h
  have h1 : y * t.width_ + x + 1 ≤ t.height_ * t.width_ := by
    calc y * t.width_ + x + 1 ≤ y * t.width_ + t.width_ := by omega
      _ = (y + 1) * t.width_ := by ring
      _ ≤ t.height_ * t.width_ := Nat.mul_le_mul_right _ hy
  have h2 : map * (t.height_ * t.width_) + (y * t.width_ + x + 1)
      ≤ t.maps_ * (t.height_ * t.width_) := by
    calc map * (t.height_ * t.width_) + (y * t.width_ + x + 1)
        ≤ map * (t.height_ * t.width_) + t.height_ * t.width_ := by omega
      _ = (map + 1) * (t.height_ * t.width_) := by ring
      _ ≤ t.maps_ * (t.height_ * t.width_) := Nat.mul_le_mul_right _ hm
  have h3 : sample * (t.maps_ * (t.height_ * t.width_))
      + (map * (t.height_ * t.width_) + (y * t.width_ + x + 1))
      ≤ t.samples_ * (t.maps_ * (t.height_ * t.width_)) := by
    calc sample * (t.maps_ * (t.height_ * t.width_))
          + (map * (t.height_ * t.width_) + (y * t.width_ + x + 1))
        ≤ sample * (t.maps_ * (t.height_ * t.width_))
          + t.maps_ * (t.height_ * t.width_) := by omega
      _ = (sample + 1) * (t.maps_ * (t.height_ * t.width_)) := by ring
      _ ≤ t.samples_ * (t.maps_ * (t.height_ * t.width_)) :=
          Nat.mul_le_mul_right _ hs
  have e : t.layout x y map sample + 1
      = sample * (t.maps_ * (t.height_ * t.width_))
        + (map * (t.height_ * t.width_) + (y * t.width_ + x + 1)) := by
    simp only [Tensor.layout]; ring
  have e' : t.samples_ * t.maps_ * t.height_ * t.width_
      = t.samples_ * (t.maps_ * (t.height_ * t.width_)) := by ring
  omega

/-- Mixed-radix digits are unique: one digit. -/
theorem radix_unique {w a x b z : Nat} (hx : x < w) (hz : z < w)
    (h : a * w + x = b * w + z) : a = b ∧ x = z := by
  have hw : 0 < w := by omega
  have hmod : (a * w + x) % w = (b * w + z) % w := by rw [h]
  have hdiv : (a * w + x) / w = (b * w + z) / w := by rw [h]
  rw [Nat.mul_comm a w, Nat.mul_comm b w] at hmod hdiv
  rw [Nat.mul_add_mod, Nat.mul_add_mod, Nat.mod_eq_of_lt hx, Nat.mod_eq_of_lt hz] at hmod
  rw [Nat.mul_add_div hw, Nat.mul_add_div hw, Nat.div_eq_of_lt hx, Nat.div_eq_of_lt hz] at hdiv
  exact ⟨by simpa using hdiv, hmod⟩

/-- The layout formula is injective on in-range index tuples. -/
theorem Tensor.layout_injective (t : Tensor) (x y map sample x' y' map' sample' : Nat)
    (h : t.InRange x y map sample) (h' : t.InRange x' y' map' sample')
    (e : t.layout x y map sample = t.layout x' y' map' sample') :
    x = x' ∧ y = y' ∧ map = map' ∧ sample = sample' := by
  obtain ⟨hx, hy, hm, _⟩ := h
  obtain ⟨hx', hy', hm', _⟩ := h'
  have e1 : ((sample * t.maps_ + map) * t.height_ + y) * t.width_ + x
      = ((sample' * t.maps_ + map') * t.height_ + y') * t.width_ + x' := by
    have l1 : t.layout x y map sample
        = ((sample * t.maps_ + map) * t.height_ + y) * t.width_ + x := by
      simp only [Tensor.layout]; ring
    have l2 : t.layout x' y' map' sample'
        = ((sample' * t.maps_ + map') * t.height_ + y') * t.width_ + x' := by
      simp only [Tensor.layout]; ring
    rw [← l1, ← l2]; exact e
  obtain ⟨e2, ex⟩ := radix_unique hx hx' e1
  obtain ⟨e3, ey⟩ := radix_unique hy hy' e2
  obtain ⟨es, em⟩ := radix_unique hm hm' e3
  exact ⟨ex, ey, em, es⟩

/-- Every offset below the element count is the layout of an in-range tuple. -/
theorem Tensor.layout_surjective (t : Tensor) (o : Nat)
    (ho : o < t.samples_ * t.maps_ * t.height_ * t.width_) :
    ∃ x y map sample, t.InRange x y map sample ∧ t.layout x y map sample = o := by
  have hw : 0 < t.width_ := by
    rcases Nat.eq_zero_or_pos t.width_ with h | h
    · rw [h] at ho; simp at ho
    · exact h
  have hh : 0 < t.height_ := by
    rcases Nat.eq_zero_or_pos t.height_ with h | h
    · rw [h] at ho; simp at ho
    · exact h
  have hm : 0 < t.maps_ := by
    rcases Nat.eq_zero_or_pos t.maps_ with h | h
    · rw [h] at ho; simp at ho
    · exact h
  refine ⟨o % t.width_, (o / t.width_) % t.height_,
    (o / t.width_ / t.height_) % t.maps_, o / t.width_ / t.height_ / t.maps_,
    ⟨Nat.mod_lt _ hw, Nat.mod_lt _ hh, Nat.mod_lt _ hm, ?_⟩, ?_⟩
  · rw [Nat.div_lt_iff_lt_mul hm, Nat.div_lt_iff_lt_mul hh, Nat.div_lt_iff_lt_mul hw]
    exact ho
  · have d1 := Nat.div_add_mod o t.width_
    have d2 := Nat.div_add_mod (o / t.width_) t.height_
    have d3 := Nat.div_add_mod (o / t.width_ / t.height_) t.maps_
    simp only [Tensor.layout]
    calc o / t.width_ / t.height_ / t.maps_ * t.maps_ * t.height_ * t.width_
          + o / t.width_ / t.height_ % t.maps_ * t.height_ * t.width_
          + o / t.width_ % t.height_ * t.width_ + o % t.width_
        = t.width_ * (t.height_ * (t.maps_ * (o / t.width_ / t.height_ / t.maps_)
            + o / t.width_ / t.height_ % t.maps_) + o / t.width_ % t.height_)
          + o % t.width_ := by ring
      _ = o := by rw [d3, d2, d1]

/-- Without `TENSORDEBUG`, or in range, `Offset` returns the layout formula
reduced modulo the word size. -/
theorem Tensor.Offset_ok (tensordebug : Bool) (t : Tensor) (x y map sample : Nat)
    (h : tensordebug = false ∨ t.InRange x y map sample) :
    t.Offset tensordebug x y map sample = .ok (t.layout x y map sample % SIZE_MOD) := by
  have hc : (tensordebug && t.outOfRange x y map sample) = false := by
    rcases h with h | h
    · simp [h]
    · simp [(Tensor.outOfRange_eq_false_iff t x y map sample).2 h]
  simp only [Tensor.Offset, hc, Tensor.wrapped_eq_layout_mod]
  rfl

/-- In range and with an element count that fits the word, `Offset` returns the
layout formula itself. -/
theorem Tensor.Offset_exact (tensordebug : Bool) (t : Tensor) (x y map sample : Nat)
    (hfit : t.samples_ * t.maps_ * t.height_ * t.width_ < SIZE_MOD)
    (h : t.InRange x y map sample) :
    t.Offset tensordebug x y map sample = .ok (t.layout x y map sample) := by
  rw [Tensor.Offset_ok tensordebug t x y map sample (Or.inr h),
    Nat.mod_eq_of_lt (lt_trans (Tensor.layout_lt t x y map sample h) hfit)]

/-! ## Lemmas on loops and blocks -/

namespace ConfusionMatrixLayer

/-- A list all of whose positions read zero is a block of zeros. -/
theorem eq_replicate_zero (a : List ℚ) (n : Nat) (hlen : a.length = n)
    (hz : ∀ j, j < n → a[j]? = some 0) : a = List.replicate n 0 := by
  apply List.ext_getElem?
  intro j
  by_cases hj : j < n
  · rw [hz j hj, List.getElem?_replicate_of_lt hj]
  · rw [List.getElem?_eq_none (by omega), List.getElem?_eq_none (by simp; omega)]

/-- The first loop of `Reset` zeroes the positions it visits and nothing
else. -/
theorem zero_matrix_loop (n : Nat) :
    ∀ (i : Nat) (L : ConfusionMatrixLayer) (m : List ℚ),
      L.matrix_ = some m → i + n ≤ m.length →
      ∃ m', forLoop
          (fun c (M : ConfusionMatrixLayer) =>
            match storeAt M.matrix_ c 0 with
            | .ok m => .ok { M with matrix_ := some m }
            | .error e => .error e) n i L = .ok { L with matrix_ := some m' } ∧
        m'.length = m.length ∧
        ∀ j, m'[j]? = if i ≤ j ∧ j < i + n then some 0 else m[j]? := by
  induction n with
  | zero =>
    intro i L m hm _
    refine ⟨m, ?_, rfl, ?_⟩
    · simp [forLoop, ← hm]
    · intro j
      have : ¬ (i ≤ j ∧ j < i + 0) := by omega
      rw [if_neg this]
  | succ n ih =>
    intro i L m hm hlen
    have hi : i < m.length := by omega
    obtain ⟨m', h1, h2, h3⟩ := ih (i + 1) { L with matrix_ := some (m.set i 0) }
      (m.set i 0) rfl (by simp; omega)
    refine ⟨m', ?_, ?_, ?_⟩
    · have hb : storeAt L.matrix_ i 0 = .ok (m.set i 0) := by simp [storeAt, hm, hi]
      simp only [forLoop, hb]
      exact h1
    · simpa using h2
    · intro j
      rw [h3 j, List.getElem?_set]
      by_cases hij : i = j
      · subst hij
        simp [hi]
      · by_cases hc : i + 1 ≤ j ∧ j < i + 1 + n
        · have : i ≤ j ∧ j < i + (n + 1) := by omega
          simp [hc, this]
        · have : ¬ (i ≤ j ∧ j < i + (n + 1)) := by omega
          simp [hc, this, hij]

/-- The second loop of `Reset` zeroes the positions it visits and nothing
else. -/
theorem zero_per_class_loop (n : Nat) :
    ∀ (i : Nat) (L : ConfusionMatrixLayer) (p : List ℚ),
      L.per_class_ = some p → i + n ≤ p.length →
      ∃ p', forLoop
          (fun c (M : ConfusionMatrixLayer) =>
            match storeAt M.per_class_ c 0 with
            | .ok q => .ok { M with per_class_ := some q }
            | .error e => .error e) n i L = .ok { L with per_class_ := some p' } ∧
        p'.length = p.length ∧
        ∀ j, p'[j]? = if i ≤ j ∧ j < i + n then some 0 else p[j]? := by
  induction n with
  | zero =>
    intro i L p hp _
    refine ⟨p, ?_, rfl, ?_⟩
    · simp [forLoop, ← hp]
    · intro j
      have : ¬ (i ≤ j ∧ j < i + 0) := by omega
      rw [if_neg this]
  | succ n ih =>
    intro i L p hp hlen
    have hi : i < p.length := by omega
    obtain ⟨p', h1, h2, h3⟩ := ih (i + 1) { L with per_class_ := some (p.set i 0) }
      (p.set i 0) rfl (by simp; omega)
    refine ⟨p', ?_, ?_, ?_⟩
    · have hb : storeAt L.per_class_ i 0 = .ok (p.set i 0) := by simp [storeAt, hp, hi]
      simp only [forLoop, hb]
      exact h1
    · simpa using h2
    · intro j
      rw [h3 j, List.getElem?_set]
      by_cases hij : i = j
      · subst hij
        simp [hi]
      · by_cases hc : i + 1 ≤ j ∧ j < i + 1 + n
        · have : i ≤ j ∧ j < i + (n + 1) := by omega
          simp [hc, this]
        · have : ¬ (i ≤ j ∧ j < i + (n + 1)) := by omega
          simp [hc, this, hij]

/-- On a layer with both blocks allocated, `Reset` returns, and returns the
layer with both blocks zeroed and both totals zero. -/
theorem Reset_allocated (L : ConfusionMatrixLayer) (h : L.Allocated) :
    L.Reset = .ok { L with
      matrix_ := some (List.replicate (mulU L.classes_ L.classes_) 0),
      per_class_ := some (List.replicate L.classes_ 0),
      total_ := 0, right_ := 0 } := by
  obtain ⟨⟨m, hm, hml⟩, ⟨p, hp, hpl⟩⟩ := h
  obtain ⟨m', h1, h2, h3⟩ := zero_matrix_loop (mulU L.classes_ L.classes_) 0 L m hm
    (by omega)
  obtain ⟨p', k1, k2, k3⟩ := zero_per_class_loop L.classes_ 0
    { L with matrix_ := some m' } p hp (by omega)
  have em : m' = List.replicate (mulU L.classes_ L.classes_) 0 :=
    eq_replicate_zero m' _ (by omega) (by
      intro j hj
      rw [h3 j]
      simp [hj])
  have ep : p' = List.replicate L.classes_ 0 :=
    eq_replicate_zero p' _ (by omega) (by
      intro j hj
      rw [k3 j]
      simp [hj])
  subst em ep
  rw [Reset, h1]
  simp only []
  rw [k1]

end ConfusionMatrixLayer

/-! ## Lemmas on `Connect` and `FeedForward` -/

namespace ConfusionMatrixLayer

theorem length_newBlock (uninit : Nat → ℚ) (n : Nat) : (newBlock uninit n).length = n := by
  simp [newBlock]

/-- On three inputs `Connect` behaves as follows: the outcome is decided by `valid`, and on
success the layer is bound, freshly allocated and reset. -/
theorem Connect_three (uninit : Nat → ℚ) (L : ConfusionMatrixLayer)
    (a b c : Option CombinedTensor) (outputs : List (Option CombinedTensor)) :
    Connect uninit L [a, b, c] outputs =
      match valid a b c outputs with
      | .error e => .error e
      | .ok false => .ok (false, L)
      | .ok true => .ok (true, { L with
          first_ := a, second_ := b, third_ := c,
          matrix_ := some (List.replicate (mulU L.classes_ L.classes_) 0),
          per_class_ := some (List.replicate L.classes_ 0),
          total_ := 0, right_ := 0 }) := by
  have hr := Reset_allocated { L with
      first_ := a, second_ := b, third_ := c,
      matrix_ := some (newBlock uninit (mulU L.classes_ L.classes_)),
      per_class_ := some (newBlock uninit L.classes_) }
    ⟨⟨_, rfl, length_newBlock _ _⟩, ⟨_, rfl, length_newBlock _ _⟩⟩
  simp only [Connect]
  rcases hv : valid a b c outputs with e | v
  · rfl
  · cases v
    · rfl
    · simp only [hr]

/-- On any other number of inputs `Connect` returns false and leaves the layer
as it was. -/
theorem Connect_not_three (uninit : Nat → ℚ) (L : ConfusionMatrixLayer)
    (inputs outputs : List (Option CombinedTensor)) (h : inputs.length ≠ 3) :
    Connect uninit L inputs outputs = .ok (false, L) := by
  match inputs, h with
  | [], _ => rfl
  | [_], _ => rfl
  | [_, _], _ => rfl
  | [_, _, _], h => exact absurd rfl h
  | _ :: _ :: _ :: _ :: _, _ => rfl

/-- With `k * k` representable, the cell index of a pair of classes below `k`
is computed without wrap-around and lies inside the matrix. -/
theorem index_exact {k p t : Nat} (hk : k * k < UINT_MOD) (hp : p < k) (ht : t < k) :
    addU (mulU p k) t = p * k + t ∧ p * k + t < k * k := by
  have h1 : p * k + t < k * k := by
    calc p * k + t < p * k + k := by omega
      _ = (p + 1) * k := by ring
      _ ≤ k * k := Nat.mul_le_mul_right _ hp
  have h2 : p * k < UINT_MOD := by omega
  refine ⟨?_, h1⟩
  simp only [addU, mulU]
  rw [Nat.mod_eq_of_lt h2, Nat.mod_eq_of_lt (by omega)]

/-- Below `k`, two class pairs share a cell index only if they are the same
pair. -/
theorem index_injective {k p t q u : Nat} (ht : t < k) (hu : u < k)
    (h : p * k + t = q * k + u) : p = q ∧ t = u :=
  radix_unique ht hu h

/-- What `readSample` returns depends on the three bound inputs only. -/
theorem readSample_congr (tensordebug : Bool) (L M : ConfusionMatrixLayer) (sample : Nat)
    (h1 : M.first_ = L.first_) (h2 : M.second_ = L.second_) (h3 : M.third_ = L.third_) :
    readSample tensordebug M sample = readSample tensordebug L sample := by
  simp only [readSample, h1, h2, h3]

/-- What `accumulate` leaves untouched. -/
theorem accumulate_frame (L M : ConfusionMatrixLayer) (r : Reading)
    (h : accumulate L r = .ok M) :
    M.classes_ = L.classes_ ∧ M.names_ = L.names_ ∧ M.disabled_ = L.disabled_ ∧
      M.first_ = L.first_ ∧ M.second_ = L.second_ ∧ M.third_ = L.third_ := by
  simp only [accumulate] at h
  split at h
  · exact absurd h (by simp)
  · split at h
    · exact absurd h (by simp)
    · injection h with h
      subst h
      exact ⟨rfl, rfl, rfl, rfl, rfl, rfl⟩

/-- The rounds of `feedAll` leave the same members untouched. -/
theorem feedAll_frame (batch : List Reading) :
    ∀ (L M : ConfusionMatrixLayer), feedAll L batch = .ok M →
      M.classes_ = L.classes_ ∧ M.names_ = L.names_ ∧ M.disabled_ = L.disabled_ ∧
        M.first_ = L.first_ ∧ M.second_ = L.second_ ∧ M.third_ = L.third_ := by
  induction batch with
  | nil =>
    intro L M h
    simp only [feedAll] at h
    injection h with h
    subst h
    exact ⟨rfl, rfl, rfl, rfl, rfl, rfl⟩
  | cons r rest ih =>
    intro L M h
    simp only [feedAll] at h
    split at h
    · rename_i L1 h1
      obtain ⟨a1, a2, a3, a4, a5, a6⟩ := accumulate_frame L L1 r h1
      obtain ⟨b1, b2, b3, b4, b5, b6⟩ := ih L1 M h
      exact ⟨b1.trans a1, b2.trans a2, b3.trans a3, b4.trans a4, b5.trans a5, b6.trans a6⟩
    · exact absurd h (by simp)

/-- The loop of `FeedForward` over samples whose reads succeed is `feedAll` on
what was read. -/
theorem forLoop_feedSample (tensordebug : Bool) (batch : List Reading) :
    ∀ (i : Nat) (L : ConfusionMatrixLayer),
      (∀ j (h : j < batch.length), readSample tensordebug L (i + j) = .ok batch[j]) →
      forLoop (feedSample tensordebug) batch.length i L = feedAll L batch := by
  induction batch with
  | nil =>
    intro i L _
    rfl
  | cons r rest ih =>
    intro i L hread
    have h0 : readSample tensordebug L i = .ok r := by
      simpa using hread 0 (by simp)
    simp only [List.length_cons, forLoop, feedSample, h0, feedAll]
    rcases hacc : accumulate L r with e | L1
    · rfl
    · obtain ⟨_, _, _, f1, f2, f3⟩ := accumulate_frame L L1 r hacc
      have := ih (i + 1) L1 (by
        intro j hj
        rw [readSample_congr tensordebug L L1 (i + 1 + j) f1 f2 f3]
        have := hread (j + 1) (by simp; omega)
        simpa [Nat.add_assoc, Nat.add_comm 1 j] using this)
      simpa [feedSample] using this

/-- An enabled `FeedForward` whose reads succeed is `feedAll` on what was
read, provided the sample count fits the loop counter. -/
theorem FeedForward_eq_feedAll (tensordebug : Bool) (L : ConfusionMatrixLayer)
    (first : CombinedTensor) (batch : List Reading)
    (henabled : L.disabled_ = false) (hfirst : L.first_ = some first)
    (hn : first.data.samples = batch.length) (hfit : batch.length < UINT_MOD)
    (hread : ∀ s (h : s < batch.length), readSample tensordebug L s = .ok batch[s]) :
    FeedForward tensordebug L = feedAll L batch := by
  have hloop := forLoop_feedSample tensordebug batch 0 L (by
    intro j hj
    simpa using hread j hj)
  have hmin : min batch.length UINT_MOD = batch.length := by omega
  simp only [FeedForward, henabled, hfirst, hn, hmin, hloop, hfit]
  rcases feedAll L batch with e | M
  · rfl
  · simp

theorem loadAt_some (a : List ℚ) (i : Nat) (h : i < a.length) :
    loadAt (some a) i = .ok a[i] := by
  simp [loadAt, List.getElem?_eq_getElem h]

theorem addAt_some (a : List ℚ) (i : Nat) (w : ℚ) (h : i < a.length) :
    addAt (some a) i w = .ok (a.set i (a[i] + w)) := by
  simp [addAt, loadAt_some a i h, storeAt, h]

theorem loadAt_set (a : List ℚ) (i j : Nat) (x : ℚ) (hi : i < a.length)
    (hj : j < a.length) :
    loadAt (some (a.set i x)) j = .ok (if i = j then x else a[j]) := by
  simp only [loadAt, List.getElem?_set, hi, if_true]
  by_cases hij : i = j
  · simp [hij]
  · simp [hij, List.getElem?_eq_getElem hj]

theorem weightSum_cons (keep : Reading → Bool) (r : Reading) (rest : List Reading) :
    weightSum keep (r :: rest) = (if keep r then r.weight else 0) + weightSum keep rest := by
  simp only [weightSum, List.filter_cons]
  by_cases h : keep r = true
  · simp [h]
  · simp [h]

/-- One round of updates, on an allocated layer with in-range classes: it
returns, keeps the blocks allocated, and adds the weight to exactly one matrix
cell, one per-class cell, the total, and (for a correct prediction) the
correct total. -/
theorem accumulate_spec (L : ConfusionMatrixLayer) (r : Reading) (hA : L.Allocated)
    (hk : L.classes_ * L.classes_ < UINT_MOD)
    (hp : r.first_class < L.classes_) (ht : r.second_class < L.classes_) :
    ∃ M, accumulate L r = .ok M ∧ M.Allocated ∧
      (∀ p t, p < L.classes_ → t < L.classes_ →
        ∃ v, cell L p t = .ok v ∧
          cell M p t = .ok (v + if r.first_class = p ∧ r.second_class = t
            then r.weight else 0)) ∧
      (∀ t, t < L.classes_ →
        ∃ v, perClass L t = .ok v ∧
          perClass M t = .ok (v + if r.second_class = t then r.weight else 0)) ∧
      M.total_ = L.total_ + r.weight ∧
      M.right_ = L.right_ + (if r.first_class = r.second_class then r.weight else 0) := by
  obtain ⟨⟨m, hm, hml⟩, ⟨q, hq, hql⟩⟩ := hA
  have hmk : m.length = L.classes_ * L.classes_ := by
    rw [hml, mulU, Nat.mod_eq_of_lt hk]
  obtain ⟨e0, l0⟩ := index_exact hk hp ht
  have hi : r.first_class * L.classes_ + r.second_class < m.length := by omega
  have hj : r.second_class < q.length := by omega
  refine ⟨{ L with
      matrix_ := some (m.set (r.first_class * L.classes_ + r.second_class)
        (m[r.first_class * L.classes_ + r.second_class] + r.weight)),
      per_class_ := some (q.set r.second_class (q[r.second_class] + r.weight)),
      total_ := L.total_ + r.weight,
      right_ := if r.first_class = r.second_class then L.right_ + r.weight
                else L.right_ }, ?_, ?_, ?_, ?_, rfl, ?_⟩
  · simp only [accumulate, hm, hq, e0, addAt_some m _ r.weight hi,
      addAt_some q _ r.weight hj]
  · exact ⟨⟨_, rfl, by simpa using hml⟩, ⟨_, rfl, by simpa using hql⟩⟩
  · intro p t hp' ht'
    obtain ⟨e1, l1⟩ := index_exact hk hp' ht'
    have hi' : p * L.classes_ + t < m.length := by omega
    refine ⟨m[p * L.classes_ + t], ?_, ?_⟩
    · simp only [cell, hm, e1, loadAt_some m _ hi']
    · simp only [cell, e1, loadAt_set m _ _ _ hi hi']
      by_cases hc : r.first_class = p ∧ r.second_class = t
      · obtain ⟨h1, h2⟩ := hc
        subst h1 h2
        simp
      · have hne : ¬ (r.first_class * L.classes_ + r.second_class = p * L.classes_ + t) :=
          fun h => hc (index_injective ht ht' h)
        simp [hc, hne]
  · intro t ht'
    have hj' : t < q.length := by omega
    refine ⟨q[t], ?_, ?_⟩
    · simp only [perClass, hq, loadAt_some q _ hj']
    · simp only [perClass, loadAt_set q _ _ _ hj hj']
      by_cases hc : r.second_class = t
      · subst hc
        simp
      · simp [hc]
  · by_cases hc : r.first_class = r.second_class
    · simp [hc]
    · simp [hc]

/-- The rounds of `FeedForward` on in-range readings: every cell grows by the
weights of the readings that address it. -/
theorem feedAll_spec (batch : List Reading) :
    ∀ (L : ConfusionMatrixLayer), L.Allocated →
      L.classes_ * L.classes_ < UINT_MOD →
      (∀ r ∈ batch, r.first_class < L.classes_ ∧ r.second_class < L.classes_) →
      ∃ M, feedAll L batch = .ok M ∧ M.Allocated ∧
        (∀ p t, p < L.classes_ → t < L.classes_ →
          ∃ v, cell L p t = .ok v ∧
            cell M p t = .ok (v + weightSum
              (fun r => decide (r.first_class = p ∧ r.second_class = t)) batch)) ∧
        (∀ t, t < L.classes_ →
          ∃ v, perClass L t = .ok v ∧
            perClass M t = .ok (v + weightSum
              (fun r => decide (r.second_class = t)) batch)) ∧
        M.total_ = L.total_ + weightSum (fun _ => true) batch ∧
        M.right_ = L.right_ + weightSum
              (fun r => decide (r.first_class = r.second_class)) batch := by
  induction batch with
  | nil =>
    intro L hA hk _
    refine ⟨L, rfl, hA, ?_, ?_, by simp [weightSum], by simp [weightSum]⟩
    · intro p t hp ht
      obtain ⟨⟨m, hm, hml⟩, _⟩ := hA
      obtain ⟨e1, l1⟩ := index_exact hk hp ht
      have hi : p * L.classes_ + t < m.length := by
        rw [hml, mulU, Nat.mod_eq_of_lt hk]; exact l1
      exact ⟨m[p * L.classes_ + t], by simp only [cell, hm, e1, loadAt_some m _ hi],
        by simp [cell, hm, e1, loadAt_some m _ hi, weightSum]⟩
    · intro t ht
      obtain ⟨_, ⟨q, hq, hql⟩⟩ := hA
      have hj : t < q.length := by omega
      exact ⟨q[t], by simp only [perClass, hq, loadAt_some q _ hj],
        by simp [perClass, hq, loadAt_some q _ hj, weightSum]⟩
  | cons r rest ih =>
    intro L hA hk hr
    obtain ⟨hp, ht⟩ := hr r (by simp)
    obtain ⟨L1, h1, hA1, c1, q1, t1, r1⟩ := accumulate_spec L r hA hk hp ht
    obtain ⟨hcl, _⟩ := accumulate_frame L L1 r h1
    obtain ⟨M, h2, hA2, c2, q2, t2, r2⟩ := ih L1 hA1 (by rw [hcl]; exact hk) (by
      intro x hx
      rw [hcl]
      exact hr x (by simp [hx]))
    refine ⟨M, by simp only [feedAll, h1, h2], hA2, ?_, ?_, ?_, ?_⟩
    · intro p t hp' ht'
      obtain ⟨v, hv, hv1⟩ := c1 p t hp' ht'
      obtain ⟨v', hv', hv2⟩ := c2 p t (by rw [hcl]; exact hp') (by rw [hcl]; exact ht')
      have : v' = v + (if r.first_class = p ∧ r.second_class = t then r.weight else 0) := by
        rw [hv1] at hv'
        injection hv' with h
        exact h.symm
      refine ⟨v, hv, ?_⟩
      rw [hv2, this, weightSum_cons]
      simp only [decide_eq_true_eq, add_assoc]
    · intro t ht'
      obtain ⟨v, hv, hv1⟩ := q1 t ht'
      obtain ⟨v', hv', hv2⟩ := q2 t (by rw [hcl]; exact ht')
      have : v' = v + (if r.second_class = t then r.weight else 0) := by
        rw [hv1] at hv'
        injection hv' with h
        exact h.symm
      refine ⟨v, hv, ?_⟩
      rw [hv2, this, weightSum_cons]
      simp only [decide_eq_true_eq, add_assoc]
    · rw [t2, t1, weightSum_cons]
      simp [add_assoc]
    · rw [r2, r1, weightSum_cons]
      simp only [decide_eq_true_eq, add_assoc]

theorem bound_allocated (names : List String) (classes : Nat) (a b c : CombinedTensor) :
    (bound names classes a b c).Allocated :=
  ⟨⟨_, rfl, List.length_replicate _ _⟩, ⟨_, rfl, List.length_replicate _ _⟩⟩

end ConfusionMatrixLayer

/-! ## Tensor::Offset -/

/-- C1: on a shape whose element count `samples * maps * height * width` fits
the machine word (overflow is set aside), `Offset`, in either build, restricted
to the index tuples with `x < width`, `y < height`, `map < maps`,
`sample < samples`, is injective, returns an offset below the element count
for every such tuple, and reaches every offset below the element count. The
four fields need not be assumed positive: with a zero field there is no such
tuple and no such offset. -/
theorem Tensor.Offset_bijective (tensordebug : Bool) (t : Tensor)
    (hfit : t.samples_ * t.maps_ * t.height_ * t.width_ < SIZE_MOD) :
    (∀ x y map sample x' y' map' sample',
        t.InRange x y map sample → t.InRange x' y' map' sample' →
        t.Offset tensordebug x y map sample = t.Offset tensordebug x' y' map' sample' →
        x = x' ∧ y = y' ∧ map = map' ∧ sample = sample') ∧
    (∀ x y map sample, t.InRange x y map sample →
        ∃ o, t.Offset tensordebug x y map sample = .ok o ∧
          o < t.samples_ * t.maps_ * t.height_ * t.width_) ∧
    (∀ o, o < t.samples_ * t.maps_ * t.height_ * t.width_ →
        ∃ x y map sample, t.InRange x y map sample ∧
          t.Offset tensordebug x y map sample = .ok o) := by
  refine ⟨?_, ?_, ?_⟩
  · intro x y map sample x' y' map' sample' h h' e
    rw [Tensor.Offset_exact tensordebug t x y map sample hfit h,
      Tensor.Offset_exact tensordebug t x' y' map' sample' hfit h'] at e
    injection e with e
    exact Tensor.layout_injective t x y map sample x' y' map' sample' h h' e
  · intro x y map sample h
    exact ⟨_, Tensor.Offset_exact tensordebug t x y map sample hfit h,
      Tensor.layout_lt t x y map sample h⟩
  · intro o ho
    obtain ⟨x, y, map, sample, h, e⟩ := Tensor.layout_surjective t o ho
    exact ⟨x, y, map, sample, h, by
      rw [Tensor.Offset_exact tensordebug t x y map sample hfit h, e]⟩

/-- C1 at the shape 2 x 2 x 2 x 2, in the diagnostic build. -/
theorem Tensor.Offset_bijective_witness :
    shape2222.samples_ * shape2222.maps_ * shape2222.height_ * shape2222.width_ < SIZE_MOD ∧
    ((∀ x y map sample x' y' map' sample',
        shape2222.InRange x y map sample → shape2222.InRange x' y' map' sample' →
        shape2222.Offset true x y map sample = shape2222.Offset true x' y' map' sample' →
        x = x' ∧ y = y' ∧ map = map' ∧ sample = sample') ∧
    (∀ x y map sample, shape2222.InRange x y map sample →
        ∃ o, shape2222.Offset true x y map sample = .ok o ∧
          o < shape2222.samples_ * shape2222.maps_ * shape2222.height_ * shape2222.width_) ∧
    (∀ o, o < shape2222.samples_ * shape2222.maps_ * shape2222.height_ * shape2222.width_ →
        ∃ x y map sample, shape2222.InRange x y map sample ∧
          shape2222.Offset true x y map sample = .ok o)) :=
  ⟨by decide, Tensor.Offset_bijective true shape2222 (by decide)⟩

/-- C10, as amended: under `TENSORDEBUG`, `Offset` reports a fatal error
exactly when `x >= width` or `y >= height` or `map >= maps` or
`sample >= samples`, and never without `TENSORDEBUG`; in every other case it
returns `sample*maps*height*width + map*height*width + y*width + x` reduced
modulo the word size, which is that sum itself whenever the sum fits the
word. -/
theorem Tensor.Offset_diagnostic (tensordebug : Bool) (t : Tensor) (x y map sample : Nat) :
    (t.Offset tensordebug x y map sample = .error Fault.fatal ↔
      (tensordebug = true ∧
        (x ≥ t.width_ ∨ y ≥ t.height_ ∨ map ≥ t.maps_ ∨ sample ≥ t.samples_))) ∧
    (¬ (tensordebug = true ∧
        (x ≥ t.width_ ∨ y ≥ t.height_ ∨ map ≥ t.maps_ ∨ sample ≥ t.samples_)) →
      t.Offset tensordebug x y map sample =
        .ok ((sample * t.maps_ * t.height_ * t.width_ + map * t.height_ * t.width_ +
          y * t.width_ + x) % SIZE_MOD)) ∧
    (¬ (tensordebug = true ∧
        (x ≥ t.width_ ∨ y ≥ t.height_ ∨ map ≥ t.maps_ ∨ sample ≥ t.samples_)) →
      sample * t.maps_ * t.height_ * t.width_ + map * t.height_ * t.width_ +
          y * t.width_ + x < SIZE_MOD →
      t.Offset tensordebug x y map sample =
        .ok (sample * t.maps_ * t.height_ * t.width_ + map * t.height_ * t.width_ +
          y * t.width_ + x)) := by
  have hok : ¬ (tensordebug = true ∧
        (x ≥ t.width_ ∨ y ≥ t.height_ ∨ map ≥ t.maps_ ∨ sample ≥ t.samples_)) →
      t.Offset tensordebug x y map sample = .ok (t.layout x y map sample % SIZE_MOD) := by
    intro h
    apply Tensor.Offset_ok
    cases tensordebug
    · exact Or.inl rfl
    · right
      rw [← Tensor.outOfRange_eq_false_iff]
      by_contra hc
      have hc' : t.outOfRange x y map sample = true := by simpa using hc
      exact h ⟨rfl, (Tensor.outOfRange_eq_true_iff t x y map sample).1 hc'⟩
  refine ⟨⟨?_, ?_⟩, hok, ?_⟩
  · intro h
    by_contra hc
    rw [hok hc] at h
    exact absurd h (by simp)
  · rintro ⟨hd, hr⟩
    have : t.outOfRange x y map sample = true :=
      (Tensor.outOfRange_eq_true_iff t x y map sample).2 hr
    simp [Tensor.Offset, hd, this]
  · intro h hlt
    rw [hok h, Tensor.layout, Nat.mod_eq_of_lt hlt]

/-- C10 as stated fails: without `TENSORDEBUG`, on a Tensor of one element,
`Offset(x = 2^64 - 1, y = 1, map = 0, sample = 0)` returns 0, while
`sample*maps*height*width + map*height*width + y*width + x` is `2^64`. -/
theorem Tensor.Offset_wraps :
    unitTensor.Offset false (2 ^ 64 - 1) 1 0 0 = .ok 0 ∧
    0 * unitTensor.maps_ * unitTensor.height_ * unitTensor.width_ +
      0 * unitTensor.height_ * unitTensor.width_ + 1 * unitTensor.width_ + (2 ^ 64 - 1)
      = 2 ^ 64 := by
  constructor
  · decide
  · decide

namespace ConfusionMatrixLayer

/-! ## FeedForward -/

/-- C2, as amended: let the layer be enabled, bound to `first` and allocated,
with a class count `k` such that `k * k` fits an `unsigned int`, and let the
reads of the `n` samples (`n` below `2^32`) return the readings of `batch`,
all with predicted class and label below `k`. Then `FeedForward` returns, and
afterwards every matrix cell `(p, t)` holds its former value plus the weights
of the samples with `p_s = p` and `t_s = t`, every per-class cell `t` its
former value plus the weights of the samples with `t_s = t`, the total its
former value plus all weights, and the correct total its former value plus the
weights of the samples with `p_s = t_s`. From the zero state, the samples
(predicted 0, true 1, weight 2) and (predicted 1, true 1, weight 1) give, in a
2-class layer, `matrix[0][1] = 2`, `matrix[1][1] = 1`, `per_class[1] = 3`,
total 3 and correct total 1; the sample (predicted 2, true 2, weight 1) gives,
in a 3-class layer, `matrix[2][2]`, `per_class[2]`, total and correct total 1. -/
theorem FeedForward_accumulates (tensordebug : Bool) (L : ConfusionMatrixLayer)
    (first : CombinedTensor) (batch : List Reading)
    (henabled : L.disabled_ = false) (hfirst : L.first_ = some first)
    (hA : L.Allocated) (hk : L.classes_ * L.classes_ < UINT_MOD)
    (hn : first.data.samples = batch.length) (hfit : batch.length < UINT_MOD)
    (hread : ∀ s (h : s < batch.length), readSample tensordebug L s = .ok batch[s])
    (hrange : ∀ r ∈ batch, r.first_class < L.classes_ ∧ r.second_class < L.classes_) :
    (∃ M, FeedForward tensordebug L = .ok M ∧
      (∀ p t, p < L.classes_ → t < L.classes_ →
        ∃ v, cell L p t = .ok v ∧
          cell M p t = .ok (v + weightSum
            (fun r => decide (r.first_class = p ∧ r.second_class = t)) batch)) ∧
      (∀ t, t < L.classes_ →
        ∃ v, perClass L t = .ok v ∧
          perClass M t = .ok (v + weightSum (fun r => decide (r.second_class = t)) batch)) ∧
      M.total_ = L.total_ + weightSum (fun _ => true) batch ∧
      M.right_ = L.right_ + weightSum
        (fun r => decide (r.first_class = r.second_class)) batch) ∧
    (readSample false twoClass 0 = .ok ⟨0, 1, 2⟩ ∧
      readSample false twoClass 1 = .ok ⟨1, 1, 1⟩ ∧
      ∃ M, FeedForward false twoClass = .ok M ∧
        cell M 0 1 = .ok 2 ∧ cell M 1 1 = .ok 1 ∧ perClass M 1 = .ok 3 ∧
        M.total_ = 3 ∧ M.right_ = 1) ∧
    (readSample false threeClass 0 = .ok ⟨2, 2, 1⟩ ∧
      ∃ M, FeedForward false threeClass = .ok M ∧
        cell M 2 2 = .ok 1 ∧ perClass M 2 = .ok 1 ∧ M.total_ = 1 ∧ M.right_ = 1) := by
  refine ⟨?_, ⟨by decide!, by decide!, ?_⟩, ⟨by decide!, ?_⟩⟩
  · obtain ⟨M, h, _, c, q, t, r⟩ := feedAll_spec batch L hA hk hrange
    exact ⟨M, by rw [FeedForward_eq_feedAll tensordebug L first batch henabled hfirst
      hn hfit hread, h], c, q, t, r⟩
  · exact ⟨twoClassFed, by decide!, by decide!, by decide!, by decide!, rfl, rfl⟩
  · exact ⟨threeClassFed, by decide!, by decide!, by decide!, rfl, rfl⟩

/-- C2 at the 2-class layer and its two samples. -/
theorem FeedForward_accumulates_witness :
    ∃ M, FeedForward false twoClass = .ok M ∧
      cell M 0 1 = .ok (0 + weightSum
        (fun r => decide (r.first_class = 0 ∧ r.second_class = 1))
        [⟨0, 1, 2⟩, ⟨1, 1, 1⟩]) ∧
      M.total_ = 0 + weightSum (fun _ => true) [⟨0, 1, 2⟩, ⟨1, 1, 1⟩] := by
  obtain ⟨⟨M, h, c, _, t, _⟩, _⟩ := FeedForward_accumulates false twoClass scoresTwo
    [⟨0, 1, 2⟩, ⟨1, 1, 1⟩] rfl rfl (bound_allocated _ _ _ _ _) (by decide) rfl (by decide)
    (by
      intro s hs
      have hs' : s = 0 ∨ s = 1 := by
        simp only [List.length_cons, List.length_nil] at hs
        omega
      rcases hs' with rfl | rfl
      · exact (by decide! : readSample false twoClass 0 = .ok ⟨0, 1, 2⟩)
      · exact (by decide! : readSample false twoClass 1 = .ok ⟨1, 1, 1⟩))
    (by decide)
  obtain ⟨v, hv, hc⟩ := c 0 1 (by decide) (by decide)
  have hv0 : v = 0 := by
    have h0 : cell twoClass 0 1 = .ok 0 := by decide!
    rw [h0] at hv
    injection hv with hv
    exact hv.symm
  subst hv0
  exact ⟨M, h, hc, t⟩

/-- C2 as stated fails: a bound, enabled layer of 65536 classes has a matrix
of `65536 * 65536 mod 2^32 = 0` cells, and `FeedForward` on one sample
(predicted 0, true 0, weight 1) writes outside it instead of reaching a state
with `matrix[0][0]` increased by 1. -/
theorem FeedForward_wide_faults :
    wideClass.Allocated ∧ wideClass.disabled_ = false ∧ wideClass.classes_ = 65536 ∧
    readSample false wideClass 0 = .ok ⟨0, 0, 1⟩ ∧
    FeedForward false wideClass = .error Fault.outOfBounds :=
  ⟨bound_allocated _ _ _ _ _, rfl, rfl, by decide!, by decide!⟩

/-! ## Reset -/

/-- C3, as amended: on a layer of class count `k` whose two blocks are
allocated as `Connect` leaves them, `Reset` returns, and afterwards the matrix
block is `k * k mod 2^32` zero cells (the `unsigned int` product), so that
every matrix cell `(p, t)` with `p, t < k` is zero whenever `k * k` is below
`2^32`; every per-class cell below `k` is zero, total and correct total are
zero, and the bound inputs, the class count, the names and the disabled flag
are as before. -/
theorem Reset_zeroes (L : ConfusionMatrixLayer) (hA : L.Allocated) :
    ∃ M, L.Reset = .ok M ∧
      M.matrix_ = some (List.replicate (L.classes_ * L.classes_ % UINT_MOD) 0) ∧
      (L.classes_ * L.classes_ < UINT_MOD →
        ∀ p t, p < L.classes_ → t < L.classes_ → cell M p t = .ok 0) ∧
      (∀ c, c < L.classes_ → perClass M c = .ok 0) ∧
      M.total_ = 0 ∧ M.right_ = 0 ∧
      M.first_ = L.first_ ∧ M.second_ = L.second_ ∧ M.third_ = L.third_ ∧
      M.classes_ = L.classes_ ∧ M.names_ = L.names_ ∧ M.disabled_ = L.disabled_ := by
  refine ⟨_, Reset_allocated L hA, rfl, ?_, ?_, rfl, rfl, rfl, rfl, rfl, rfl, rfl, rfl⟩
  · intro hk p t hp ht
    obtain ⟨e, l⟩ := index_exact hk hp ht
    have hl : p * L.classes_ + t < mulU L.classes_ L.classes_ := by
      rw [mulU, Nat.mod_eq_of_lt hk]; exact l
    simp only [cell, e, loadAt, List.getElem?_replicate_of_lt hl]
  · intro c hc
    simp only [perClass, loadAt, List.getElem?_replicate_of_lt hc]

/-- C3 at the 2-class layer after its two samples. -/
theorem Reset_zeroes_witness :
    twoClassFed.Allocated ∧
    ∃ M, twoClassFed.Reset = .ok M ∧
      (∀ p t, p < 2 → t < 2 → cell M p t = .ok 0) ∧
      (∀ c, c < 2 → perClass M c = .ok 0) ∧
      M.total_ = 0 ∧ M.right_ = 0 ∧
      M.first_ = twoClassFed.first_ ∧ M.second_ = twoClassFed.second_ ∧
      M.third_ = twoClassFed.third_ :=
  have hA : twoClassFed.Allocated := ⟨⟨_, rfl, rfl⟩, ⟨_, rfl, rfl⟩⟩
  have ⟨M, h, _, hc, hp, ht, hr, h1, h2, h3, _⟩ := Reset_zeroes twoClassFed hA
  ⟨hA, M, h, hc (by decide), hp, ht, hr, h1, h2, h3⟩

/-- C3 as stated fails: for 65536 classes the matrix block has
`65536 * 65536 mod 2^32 = 0` cells, so after `Reset` there is no cell
`matrix[0][0]` to be zero; reading it falls outside the block. -/
theorem Reset_wide_no_cell :
    wideClass.Allocated ∧ wideClass.classes_ = 65536 ∧
    ∃ M, wideClass.Reset = .ok M ∧ M.matrix_ = some [] ∧
      cell M 0 0 = .error Fault.outOfBounds := by
  refine ⟨bound_allocated _ _ _ _ _, rfl, _, Reset_allocated wideClass
    (bound_allocated _ _ _ _ _), ?_, ?_⟩
  · have h : mulU wideClass.classes_ wideClass.classes_ = 0 := by decide
    simp only [h, List.replicate_zero]
  · have h : mulU wideClass.classes_ wideClass.classes_ = 0 := by decide
    simp only [cell, h, List.replicate_zero]
    rfl

/-! ## CreateOutputs -/

/-- C4, as amended: `CreateOutputs` returns true if and only if there are
exactly 3 inputs, none of them null, the first and the second have the same
sample count, the second (the label input `FeedForward` reads) has exactly one
element per sample, and the first and the third have the same sample count.
In every case the outputs vector and the layer are as before. -/
theorem CreateOutputs_iff (L : ConfusionMatrixLayer)
    (inputs outputs : List (Option CombinedTensor)) :
    ((L.CreateOutputs inputs outputs).1 = true ↔
      ∃ first second third, inputs = [some first, some second, some third] ∧
        first.data.samples = second.data.samples ∧
        second.data.elements = second.data.samples ∧
        first.data.samples = third.data.samples) ∧
    (L.CreateOutputs inputs outputs).2 = (outputs, L) := by
  match inputs with
  | [] => simp [CreateOutputs]
  | [_] => simp [CreateOutputs]
  | [_, _] => simp [CreateOutputs]
  | _ :: _ :: _ :: _ :: _ => simp [CreateOutputs]
  | [a, b, c] =>
    cases a with
    | none => simp [CreateOutputs]
    | some f =>
      cases b with
      | none => simp [CreateOutputs]
      | some s =>
        cases c with
        | none => simp [CreateOutputs]
        | some t =>
          simp only [CreateOutputs]
          split_ifs with h1 h2 h3
          · refine ⟨⟨fun h => absurd h (by simp), ?_⟩, rfl⟩
            rintro ⟨f', s', t', e, g1, _, _⟩
            injection e with e1 e
            injection e with e2 e
            injection e1 with e1
            injection e2 with e2
            subst e1 e2
            exact absurd g1 h1
          · refine ⟨⟨fun h => absurd h (by simp), ?_⟩, rfl⟩
            rintro ⟨f', s', t', e, _, g2, _⟩
            injection e with e1 e
            injection e with e2 e
            injection e2 with e2
            subst e2
            exact absurd g2 h2
          · refine ⟨⟨fun h => absurd h (by simp), ?_⟩, rfl⟩
            rintro ⟨f', s', t', e, _, _, g3⟩
            injection e with e1 e
            injection e with e2 e
            injection e with e3 e
            injection e1 with e1
            injection e3 with e3
            subst e1 e3
            exact absurd g3 h3
          · exact ⟨⟨fun _ => ⟨f, s, t, rfl, not_not.1 h1, not_not.1 h2, not_not.1 h3⟩,
              fun _ => rfl⟩, rfl⟩

/-- C4 as stated fails in both directions. With third input `scoresTwo` (two
samples, four elements) `CreateOutputs` returns true although the third input
has two elements per sample; with second input `scoresTwo` and third input
`labelsTwo` it returns false although the third input has one element per
sample and all sample counts agree. -/
theorem CreateOutputs_checks_second :
    ((twoClass.CreateOutputs [some scoresTwo, some labelsTwo, some scoresTwo] []).1 = true ∧
      scoresTwo.data.elements ≠ scoresTwo.data.samples) ∧
    ((twoClass.CreateOutputs [some scoresTwo, some scoresTwo, some labelsTwo] []).1 = false ∧
      scoresTwo.data.samples = scoresTwo.data.samples ∧
      labelsTwo.data.elements = labelsTwo.data.samples ∧
      scoresTwo.data.samples = labelsTwo.data.samples) := by
  decide

/-! ## Connect -/

/-- C5, the failing input: with a non-null first and second input of equal
sample counts and a null third input, `Connect` evaluates
`third->data.samples()` on the null pointer instead of returning false. -/
theorem Connect_null_third :
    Connect (fun _ => 0) (fresh ["a", "b"] 2) [some scoresTwo, some labelsTwo, none] []
      = .error Fault.nullDeref := by
  decide

/-- C6: whenever `Connect` returns false, the layer is exactly what it was
before the call: bound inputs, both blocks, total and correct total. -/
theorem Connect_false_unchanged (uninit : Nat → ℚ) (L M : ConfusionMatrixLayer)
    (inputs outputs : List (Option CombinedTensor))
    (h : Connect uninit L inputs outputs = .ok (false, M)) : M = L := by
  by_cases h3 : inputs.length = 3
  · match inputs, h3 with
    | [a, b, c], _ =>
      rw [Connect_three] at h
      split at h
      · exact absurd h (by simp)
      · injection h with h
        injection h with _ h
        exact h.symm
      · injection h with h
        injection h with h _
        exact absurd h (by simp)
  · rw [Connect_not_three uninit L inputs outputs h3] at h
    injection h with h
    injection h with _ h
    exact h.symm

/-- C6 at a bound layer that has accumulated two samples, called with 2
inputs. -/
theorem Connect_false_unchanged_witness :
    ∃ M, Connect (fun _ => 0) twoClassFed [some scoresOne, some labelsOne] []
      = .ok (false, M) ∧ M = twoClassFed :=
  ⟨twoClassFed, by decide, Connect_false_unchanged (fun _ => 0) twoClassFed twoClassFed
    [some scoresOne, some labelsOne] [] (by decide)⟩

/-- C7, as amended: whenever `Connect` returns true on a layer of class count
`k`, the layer afterwards references exactly the three supplied inputs, in
order, holds a matrix block of `k * k mod 2^32` cells (the `unsigned int`
product; `k * k` cells whenever `k * k` is below `2^32`) and a per-class block
of `k` cells, every cell of both is zero, and total and correct total are
zero; class count, names and disabled flag are as before. -/
theorem Connect_true_state (uninit : Nat → ℚ) (L M : ConfusionMatrixLayer)
    (inputs outputs : List (Option CombinedTensor))
    (h : Connect uninit L inputs outputs = .ok (true, M)) :
    inputs = [M.first_, M.second_, M.third_] ∧
    M.matrix_ = some (List.replicate (L.classes_ * L.classes_ % UINT_MOD) 0) ∧
    (L.classes_ * L.classes_ < UINT_MOD →
      M.matrix_ = some (List.replicate (L.classes_ * L.classes_) 0)) ∧
    M.per_class_ = some (List.replicate L.classes_ 0) ∧
    M.total_ = 0 ∧ M.right_ = 0 ∧
    M.classes_ = L.classes_ ∧ M.names_ = L.names_ ∧ M.disabled_ = L.disabled_ := by
  by_cases h3 : inputs.length = 3
  · match inputs, h3 with
    | [a, b, c], _ =>
      rw [Connect_three] at h
      split at h
      · exact absurd h (by simp)
      · injection h with h
        injection h with h _
        exact absurd h (by simp)
      · injection h with h
        injection h with _ h
        subst h
        refine ⟨rfl, rfl, ?_, rfl, rfl, rfl, rfl, rfl, rfl⟩
        intro hk
        simp only [mulU, Nat.mod_eq_of_lt hk]
  · rw [Connect_not_three uninit L inputs outputs h3] at h
    injection h with h
    injection h with h _
    exact absurd h (by simp)

/-- C7 at the 2-class layer. -/
theorem Connect_true_state_witness :
    Connect (fun _ => 7) (fresh ["a", "b"] 2) [some scoresTwo, some labelsTwo, some weightsTwo] []
      = .ok (true, twoClass) ∧
    twoClass.matrix_ = some (List.replicate (2 * 2 % UINT_MOD) 0) ∧
    twoClass.per_class_ = some (List.replicate 2 0) :=
  have h := Connect_true_state (fun _ => 7) (fresh ["a", "b"] 2) twoClass
    [some scoresTwo, some labelsTwo, some weightsTwo] [] (by decide)
  ⟨by decide, h.2.1, h.2.2.2.1⟩

/-- C7 as stated fails: for a layer constructed with 65536 classes `Connect`
returns true and leaves a matrix block of no cells, not of
`65536 * 65536` cells. -/
theorem Connect_wide_empty_matrix :
    Connect (fun _ => 0) (fresh (List.replicate 65536 "c") 65536)
        [some scoresOne, some labelsOne, some weightsOne] [] = .ok (true, wideClass) ∧
    wideClass.matrix_ = some [] := by
  constructor
  · rw [Connect_three]
    rfl
  · have h : mulU 65536 65536 = 0 := by decide
    simp only [wideClass, bound, h, List.replicate_zero]

/-! ## Lemmas on `Print` -/

/-- A loop that appends one item per round returns the items in order. -/
theorem forLoop_collect {β : Type} (body : Nat → List β → Except Fault (List β))
    (item : Nat → β) (n : Nat) :
    ∀ (i : Nat) (acc : List β),
      (∀ j, j < n → ∀ acc, body (i + j) acc = .ok (acc ++ [item (i + j)])) →
      forLoop body n i acc = .ok (acc ++ (List.range' i n).map item) := by
  induction n with
  | zero =>
    intro i acc _
    simp [forLoop]
  | succ n ih =>
    intro i acc hb
    have h0 : body i acc = .ok (acc ++ [item i]) := by simpa using hb 0 (by omega) acc
    have hrest := ih (i + 1) (acc ++ [item i]) (by
      intro j hj acc'
      have := hb (j + 1) (by omega) acc'
      simpa [Nat.add_assoc, Nat.add_comm 1 j] using this)
    simp only [forLoop, h0, hrest, List.range'_succ, List.map_cons, List.append_assoc,
      List.singleton_append]

theorem nameAt_ok (names : List String) (c : Nat) (h : c < names.length) :
    nameAt names c = .ok ((names[c]?).getD "") := by
  simp [nameAt, List.getElem?_eq_getElem h]

/-- On an allocated layer with `k * k` representable, every cell of a pair of
classes below `k` exists. -/
theorem cell_ok (L : ConfusionMatrixLayer) (hA : L.Allocated)
    (hk : L.classes_ * L.classes_ < UINT_MOD) (p t : Nat)
    (hp : p < L.classes_) (ht : t < L.classes_) :
    cell L p t = .ok (matrixVal L p t) := by
  obtain ⟨⟨m, hm, hml⟩, _⟩ := hA
  obtain ⟨e, l⟩ := index_exact hk hp ht
  have hi : p * L.classes_ + t < m.length := by
    rw [hml, mulU, Nat.mod_eq_of_lt hk]; exact l
  have hc : cell L p t = .ok m[p * L.classes_ + t] := by
    simp only [cell, hm, e, loadAt_some m _ hi]
  simp only [matrixVal, hc]

theorem perClass_ok (L : ConfusionMatrixLayer) (hA : L.Allocated) (c : Nat)
    (hc : c < L.classes_) : perClass L c = .ok (perClassVal L c) := by
  obtain ⟨_, ⟨q, hq, hql⟩⟩ := hA
  have hj : c < q.length := by omega
  have h : perClass L c = .ok q[c] := by
    simp only [perClass, hq, loadAt_some q _ hj]
  simp only [perClassVal, h]

/-- The loop of `Print` over the classes: `sum` gathers the ratios and
`ccount` counts the classes whose per-class total is positive. -/
theorem rate_loop (L : ConfusionMatrixLayer) (hA : L.Allocated)
    (hk : L.classes_ * L.classes_ < UINT_MOD) (n : Nat) :
    ∀ (i : Nat) (acc : ℚ × ℚ), i + n ≤ L.classes_ →
      forLoop
        (fun c (acc : ℚ × ℚ) =>
          match loadAt L.per_class_ c with
          | .error e => .error e
          | .ok pc =>
            if pc > 0 then
              match loadAt L.matrix_ (addU (mulU c L.classes_) c) with
              | .error e => .error e
              | .ok d => .ok (acc.1 + d / pc, acc.2 + 1)
            else .ok acc) n i acc
        = .ok
          (acc.1 + (((List.range' i n).filter
              (fun c => decide (perClassVal L c > 0))).map
                (fun c => matrixVal L c c / perClassVal L c)).sum,
            acc.2 + (((List.range' i n).filter
              (fun c => decide (perClassVal L c > 0))).length : ℚ)) := by
  induction n with
  | zero =>
    intro i acc _
    simp [forLoop]
  | succ n ih =>
    intro i acc hi
    have hpc : loadAt L.per_class_ i = .ok (perClassVal L i) :=
      perClass_ok L hA i (by omega)
    have hd : loadAt L.matrix_ (addU (mulU i L.classes_) i) = .ok (matrixVal L i i) :=
      cell_ok L hA hk i i (by omega) (by omega)
    by_cases hpos : perClassVal L i > 0
    · simp only [forLoop, hpc, hd, hpos, if_true]
      rw [ih (i + 1) _ (by omega)]
      simp only [List.range'_succ, List.filter_cons, hpos, decide_True, if_true,
        List.map_cons, List.sum_cons, List.length_cons, Nat.cast_add, Nat.cast_one]
      refine congrArg _ (Prod.ext ?_ ?_)
      · simp only []
        ring
      · simp only []
        ring
    · simp only [forLoop, hpc, hpos, if_false]
      rw [ih (i + 1) _ (by omega)]
      simp [List.range'_succ, List.filter_cons, hpos]

/-- On an allocated layer with `k * k` representable and a name for every
class, `Print` returns, and this is what it writes. -/
theorem Print_report (L : ConfusionMatrixLayer) (pfx : String) (training : Bool)
    (hA : L.Allocated) (hk : L.classes_ * L.classes_ < UINT_MOD)
    (hnames : L.classes_ ≤ L.names_.length) :
    ∃ rep, Print L pfx training = .ok rep ∧
      rep.caption = "vCLS  ACT>" ::
        (List.range' 0 L.classes_).map (fun c => (L.names_[c]?).getD "") ∧
      rep.rows = (List.range' 0 L.classes_).map (fun r =>
        ((L.names_[r]?).getD "",
          (List.range' 0 L.classes_).map (fun c => toLong (matrixVal L r c)))) ∧
      rep.overall.2 = overallRate L ∧
      rep.average.2 = meanRate (fun q => decide (q > 0)) L := by
  have hcap : printCaption L = .ok ("vCLS  ACT>" ::
      (List.range' 0 L.classes_).map (fun c => (L.names_[c]?).getD "")) := by
    rw [printCaption]
    rw [forLoop_collect _ (fun c => (L.names_[c]?).getD "") L.classes_ 0 ["vCLS  ACT>"] (by
      intro j hj acc
      rw [Nat.zero_add]
      simp only [nameAt_ok L.names_ j (by omega)])]
    rfl
  have hrow : ∀ r, r < L.classes_ → printRow L r = .ok ((L.names_[r]?).getD "",
      (List.range' 0 L.classes_).map (fun c => toLong (matrixVal L r c))) := by
    intro r hr
    rw [printRow]
    rw [forLoop_collect _ (fun c => toLong (matrixVal L r c)) L.classes_ 0 [] (by
      intro j hj acc
      rw [Nat.zero_add]
      have := cell_ok L hA hk r j hr hj
      simp only [cell] at this
      simp only [this])]
    simp only [nameAt_ok L.names_ r (by omega), List.nil_append]
  have hrows : printRows L = .ok ((List.range' 0 L.classes_).map (fun r =>
      ((L.names_[r]?).getD "",
        (List.range' 0 L.classes_).map (fun c => toLong (matrixVal L r c))))) := by
    rw [printRows]
    rw [forLoop_collect _ (fun r => ((L.names_[r]?).getD "",
        (List.range' 0 L.classes_).map (fun c => toLong (matrixVal L r c))))
      L.classes_ 0 [] (by
      intro j hj acc
      rw [Nat.zero_add]
      simp only [hrow j hj])]
    rfl
  have hrate := rate_loop L hA hk L.classes_ 0 (0, 0) (by omega)
  simp only [Print, hcap, hrows, rateLoop, hrate]
  refine ⟨_, rfl, rfl, rfl, ?_, ?_⟩
  · simp only [fdiv, overallRate]
  · simp only [fdiv, meanRate, keptClasses, List.range_eq_range', zero_add, Nat.cast_eq_zero]
    split_ifs with h0
    · rfl
    · congr 1
      ring

/-- Reading a report of the form `Print_report` gives: row and column labels
are the class names, and the number in row `r`, column `c` is the cell
`(r, c)` converted to `long`. -/
theorem report_access (L : ConfusionMatrixLayer) (rep : Report)
    (hnames : L.classes_ ≤ L.names_.length)
    (hcap : rep.caption = "vCLS  ACT>" ::
        (List.range' 0 L.classes_).map (fun c => (L.names_[c]?).getD ""))
    (hrows : rep.rows = (List.range' 0 L.classes_).map (fun r =>
        ((L.names_[r]?).getD "",
          (List.range' 0 L.classes_).map (fun c => toLong (matrixVal L r c)))))
    (r c : Nat) (hr : r < L.classes_) (hc : c < L.classes_) :
    rep.rowLabel r = L.names_[r]? ∧ rep.columnLabel c = L.names_[c]? ∧
      rep.shown r c = some (toLong (matrixVal L r c)) := by
  have hr' : r < L.names_.length := by omega
  have hc' : c < L.names_.length := by omega
  refine ⟨?_, ?_, ?_⟩
  · simp [Report.rowLabel, hrows, List.getElem?_range' 0 1 hr,
      List.getElem?_eq_getElem hr']
  · simp [Report.columnLabel, hcap, List.getElem?_range' 0 1 hc,
      List.getElem?_eq_getElem hc']
  · simp [Report.shown, hrows, List.getElem?_range' 0 1 hr, List.getElem?_range' 0 1 hc]

/-- Within the range of `long` the conversion is the truncation toward zero. -/
theorem toLong_in_range (q : ℚ) (h1 : LONG_MIN ≤ truncate q) (h2 : truncate q ≤ LONG_MAX) :
    toLong q = truncate q := by
  simp only [toLong, h1, h2, and_self, if_true]

/-! ## Print -/

/-- C8, as amended: in the table `Print` writes, rows are indexed by predicted
class (the `vCLS` of the corner text) and columns by true class (`ACT>`). Let
an enabled, bound, allocated layer with `k * k` below `2^32` and a name for
every class run `FeedForward` on a batch as in C2. Then `Print` returns, and
for all `r, c < k` the row headed `names[r]` shows, in the column headed
`names[c]`, the conversion to `long` of the former cell `(r, c)` plus the
weights of the samples whose predicted class is `r` and whose true class is
`c`. Whenever that sum truncated toward zero is a value of a 64-bit `long`
(between `-2^63` and `2^63 - 1`), the number shown is the truncated sum; from
a zero cell this is the truncated accumulated weight of those samples. -/
theorem Print_rows_predicted (tensordebug : Bool) (L : ConfusionMatrixLayer)
    (first : CombinedTensor) (batch : List Reading) (pfx : String) (training : Bool)
    (henabled : L.disabled_ = false) (hfirst : L.first_ = some first)
    (hA : L.Allocated) (hk : L.classes_ * L.classes_ < UINT_MOD)
    (hnames : L.classes_ ≤ L.names_.length)
    (hn : first.data.samples = batch.length) (hfit : batch.length < UINT_MOD)
    (hread : ∀ s (h : s < batch.length), readSample tensordebug L s = .ok batch[s])
    (hrange : ∀ r ∈ batch, r.first_class < L.classes_ ∧ r.second_class < L.classes_) :
    ∃ M rep, FeedForward tensordebug L = .ok M ∧ Print M pfx training = .ok rep ∧
      ∀ r c, r < L.classes_ → c < L.classes_ →
        rep.rowLabel r = L.names_[r]? ∧ rep.columnLabel c = L.names_[c]? ∧
        (∃ v, cell L r c = .ok v ∧
          rep.shown r c = some (toLong (v + weightSum
            (fun s => decide (s.first_class = r ∧ s.second_class = c)) batch)) ∧
          (LONG_MIN ≤ truncate (v + weightSum
              (fun s => decide (s.first_class = r ∧ s.second_class = c)) batch) →
            truncate (v + weightSum
              (fun s => decide (s.first_class = r ∧ s.second_class = c)) batch) ≤ LONG_MAX →
            rep.shown r c = some (truncate (v + weightSum
              (fun s => decide (s.first_class = r ∧ s.second_class = c)) batch)))) ∧
        (cell L r c = .ok 0 →
          LONG_MIN ≤ truncate (weightSum
            (fun s => decide (s.first_class = r ∧ s.second_class = c)) batch) →
          truncate (weightSum
            (fun s => decide (s.first_class = r ∧ s.second_class = c)) batch) ≤ LONG_MAX →
          rep.shown r c = some (truncate (weightSum
            (fun s => decide (s.first_class = r ∧ s.second_class = c)) batch))) := by
  obtain ⟨M, hM, hAM, hcells, _⟩ := feedAll_spec batch L hA hk hrange
  obtain ⟨hcl, hnm, _⟩ := feedAll_frame batch L M hM
  obtain ⟨rep, hP, hcap, hrows, _⟩ := Print_report M pfx training hAM
    (by rw [hcl]; exact hk) (by rw [hcl, hnm]; exact hnames)
  refine ⟨M, rep, by rw [FeedForward_eq_feedAll tensordebug L first batch henabled hfirst
      hn hfit hread, hM], hP, ?_⟩
  intro r c hr hc
  obtain ⟨a1, a2, a3⟩ := report_access M rep (by rw [hcl, hnm]; exact hnames) hcap hrows
    r c (by rw [hcl]; exact hr) (by rw [hcl]; exact hc)
  obtain ⟨v, hv, hv'⟩ := hcells r c hr hc
  have hval : matrixVal M r c = v + weightSum
      (fun s => decide (s.first_class = r ∧ s.second_class = c)) batch := by
    simp only [matrixVal, hv']
  refine ⟨by rw [a1, hnm], by rw [a2, hnm], ⟨v, hv, by rw [a3, hval], ?_⟩, ?_⟩
  · intro h1 h2
    rw [a3, hval, toLong_in_range _ h1 h2]
  · intro h0 h1 h2
    rw [hv] at h0
    injection h0 with h0
    rw [a3, hval, h0, zero_add, toLong_in_range _ h1 h2]

/-- C8 at the 2-class layer and its two samples: row `a` (predicted class 0),
column `b` (true class 1) shows 2, the truncated weight of the one sample
with predicted class 0 and true class 1. -/
theorem Print_rows_predicted_witness :
    ∃ M rep, FeedForward false twoClass = .ok M ∧ Print M "" false = .ok rep ∧
      rep.rowLabel 0 = some "a" ∧ rep.columnLabel 1 = some "b" ∧
      rep.shown 0 1 = some (truncate (weightSum
        (fun s => decide (s.first_class = 0 ∧ s.second_class = 1))
        [⟨0, 1, 2⟩, ⟨1, 1, 1⟩])) := by
  obtain ⟨M, rep, h1, h2, h⟩ := Print_rows_predicted false twoClass scoresTwo
    [⟨0, 1, 2⟩, ⟨1, 1, 1⟩] "" false rfl rfl (bound_allocated _ _ _ _ _) (by decide)
    (by decide) rfl (by decide)
    (by
      intro s hs
      have hs' : s = 0 ∨ s = 1 := by
        simp only [List.length_cons, List.length_nil] at hs
        omega
      rcases hs' with rfl | rfl
      · exact (by decide! : readSample false twoClass 0 = .ok ⟨0, 1, 2⟩)
      · exact (by decide! : readSample false twoClass 1 = .ok ⟨1, 1, 1⟩))
    (by decide)
  obtain ⟨a1, a2, _, a4⟩ := h 0 1 (by decide) (by decide)
  exact ⟨M, rep, h1, h2, a1, a2, a4 (by decide!) (by decide!) (by decide!)⟩

/-- C8 as stated fails: after the samples (predicted 0, true 1, weight 2) and
(predicted 1, true 1, weight 1), the row headed `a` (class 0) shows 2 in the
column headed `b` (class 1), while the accumulated weight of the samples whose
true class is 0 and whose predicted class is 1 is 0. Nor is the number shown
the truncated weight in every state: after one sample (predicted 0, true 0)
of weight `2^63` in a 1-class layer, the cell holds `2^63`, which is not a
value of `long`, and the table shows `-2^63`. -/
theorem Print_rows_not_true_class :
    (FeedForward false twoClass = .ok twoClassFed ∧
      readSample false twoClass 0 = .ok ⟨0, 1, 2⟩ ∧
      readSample false twoClass 1 = .ok ⟨1, 1, 1⟩ ∧
      ∃ rep, Print twoClassFed "" false = .ok rep ∧
        rep.rowLabel 0 = some "a" ∧ rep.columnLabel 1 = some "b" ∧
        rep.shown 0 1 = some 2 ∧
        truncate (weightSum (fun s => decide (s.second_class = 0 ∧ s.first_class = 1))
          [⟨0, 1, 2⟩, ⟨1, 1, 1⟩]) = 0) ∧
    (FeedForward false oneClassHuge = .ok oneClassHugeFed ∧
      readSample false oneClassHuge 0 = .ok ⟨0, 0, 9223372036854775808⟩ ∧
      cell oneClassHugeFed 0 0 = .ok 9223372036854775808 ∧
      ∃ rep, Print oneClassHugeFed "" false = .ok rep ∧
        rep.rowLabel 0 = some "a" ∧ rep.columnLabel 0 = some "a" ∧
        rep.shown 0 0 = some (-9223372036854775808) ∧
        truncate (weightSum (fun s => decide (s.first_class = 0 ∧ s.second_class = 0))
          [⟨0, 0, 9223372036854775808⟩]) = 9223372036854775808) :=
  ⟨⟨by decide!, by decide!, by decide!, _, rfl, by decide!, by decide!, by decide!,
      by decide!⟩,
    ⟨by decide!, by decide!, by decide!, _, rfl, by decide!, by decide!, by decide!,
      by decide!⟩⟩

/-- C9, as amended: on an allocated layer with `k * k` below `2^32` and a name
for every class, `Print` returns, its unnormalized rate is
`100 * right / total` (not a number when the total is zero), and its
normalized rate is `100 * (1/m) *` the sum, over the classes `c` whose
`per_class[c]` is positive, of `matrix[c][c] / per_class[c]`, where `m` is the
number of those classes (not a number when there is none). For the 2-class
layer after the samples (predicted 0, true 1, weight 2) and (predicted 1,
true 1, weight 1) both rates are `100/3`; for the 3-class layer after its one
correct sample of weight 1 the unnormalized rate is 100. -/
theorem Print_rates (L : ConfusionMatrixLayer) (pfx : String) (training : Bool)
    (hA : L.Allocated) (hk : L.classes_ * L.classes_ < UINT_MOD)
    (hnames : L.classes_ ≤ L.names_.length) :
    (∃ rep, Print L pfx training = .ok rep ∧
      rep.overall.2 = overallRate L ∧
      rep.average.2 = meanRate (fun q => decide (q > 0)) L) ∧
    (FeedForward false twoClass = .ok twoClassFed ∧
      ∃ rep, Print twoClassFed pfx training = .ok rep ∧
        rep.overall.2 = some (100 / 3) ∧ rep.average.2 = some (100 / 3)) ∧
    (FeedForward false threeClass = .ok threeClassFed ∧
      ∃ rep, Print threeClassFed pfx training = .ok rep ∧ rep.overall.2 = some 100) := by
  refine ⟨?_, ⟨by decide!, ?_⟩, ⟨by decide!, ?_⟩⟩
  · obtain ⟨rep, h, _, _, h1, h2⟩ := Print_report L pfx training hA hk hnames
    exact ⟨rep, h, h1, h2⟩
  · obtain ⟨rep, h, _, _, h1, h2⟩ := Print_report twoClassFed pfx training
      ⟨⟨_, rfl, rfl⟩, ⟨_, rfl, rfl⟩⟩ (by decide) (by decide)
    refine ⟨rep, h, ?_, ?_⟩
    · rw [h1]; decide!
    · rw [h2]; decide!
  · obtain ⟨rep, h, _, _, h1, _⟩ := Print_report threeClassFed pfx training
      ⟨⟨_, rfl, rfl⟩, ⟨_, rfl, rfl⟩⟩ (by decide) (by decide)
    refine ⟨rep, h, ?_⟩
    rw [h1]; decide!

/-- C9 at the 2-class layer after its two samples. -/
theorem Print_rates_witness :
    ∃ rep, Print twoClassFed "" false = .ok rep ∧
      rep.overall.2 = overallRate twoClassFed ∧
      rep.average.2 = meanRate (fun q => decide (q > 0)) twoClassFed :=
  (Print_rates twoClassFed "" false ⟨⟨_, rfl, rfl⟩, ⟨_, rfl, rfl⟩⟩ (by decide)
    (by decide)).1

/-- C9 as stated fails: after one sample (predicted 0, true 0, weight -1) in a
1-class layer, `per_class[0] = -1` is nonzero, the mean over the classes with
nonzero per-class total is `100 * (1/1) * ((-1) / (-1)) = 100`, and `Print`,
which keeps only positive per-class totals, divides zero by zero. -/
theorem Print_average_skips_negative :
    FeedForward false oneClassMinus = .ok oneClassMinusFed ∧
    perClass oneClassMinusFed 0 = .ok (-1) ∧
    (∃ rep, Print oneClassMinusFed "" false = .ok rep ∧ rep.average.2 = none) ∧
    meanRate (fun q => decide (q ≠ 0)) oneClassMinusFed = some 100 :=
  ⟨by decide!, by decide!, ⟨_, rfl, by decide!⟩, by decide!⟩

end ConfusionMatrixLayer

/-! ## Element access -/

/-- C11, the failing input: under `TENSORDEBUG`, `operator()` and `operator[]`
report a fatal error exactly when the Tensor has no storage or the element
number is greater than `elements`; on a Tensor of one element the element
number 1, equal to `elements`, is not rejected, and the access goes past the
end of the storage. -/
theorem Tensor.access_fatal_iff (t : Tensor) (element : Nat) :
    (t.elementAt true element = .error Fault.fatal ↔
      (t.data_ptr_ = none ∨ element > t.elements_)) ∧
    (t.subscript true element = .error Fault.fatal ↔
      (t.data_ptr_ = none ∨ element > t.elements_)) ∧
    unitTensor.elements = 1 ∧ unitTensor.data_ptr_ = some [Datum.ofVal 0] ∧
    unitTensor.elementAt true 1 = .error Fault.outOfBounds ∧
    unitTensor.subscript true 1 = .error Fault.outOfBounds := by
  refine ⟨?_, ?_, rfl, rfl, by decide, by decide⟩
  · cases hd : t.data_ptr_ with
    | none => simp [Tensor.elementAt, hd]
    | some d =>
      by_cases he : element > t.elements_
      · simp [Tensor.elementAt, hd, he]
      · simp only [Tensor.elementAt, hd, he]
        cases d[element]? <;> simp
  · cases hd : t.data_ptr_ with
    | none => simp [Tensor.subscript, hd]
    | some d =>
      by_cases he : element > t.elements_
      · simp [Tensor.subscript, hd, he]
      · simp only [Tensor.subscript, hd, he]
        cases d[element]? <;> simp

namespace ConfusionMatrixLayer

/-! ## Disabled layer, BackPropagate -/

/-- C13: when the layer is disabled, `FeedForward` returns and leaves the
whole layer (matrix, per-class totals, total, correct total, bound inputs) as
it was, whatever the bound tensors hold and in either build; `BackPropagate`
leaves the whole layer as it was in every state. -/
theorem FeedForward_disabled (tensordebug : Bool) (L K : ConfusionMatrixLayer)
    (h : L.disabled_ = true) :
    FeedForward tensordebug L = .ok L ∧ BackPropagate K = K := by
  refine ⟨?_, rfl⟩
  simp [FeedForward, h]

/-- C13 at the disabled 2-class layer, whose bound tensors hold two samples. -/
theorem FeedForward_disabled_witness :
    twoClassDisabled.disabled_ = true ∧
    FeedForward false twoClassDisabled = .ok twoClassDisabled ∧
    BackPropagate twoClassFed = twoClassFed :=
  ⟨rfl, FeedForward_disabled false twoClassDisabled twoClassFed rfl⟩

end ConfusionMatrixLayer

namespace ConfusionMatrixLayer

/-! ## Connect against CreateOutputs -/

/-- C15, the failing input: with a second input of two samples and four
elements (two elements per sample), `Connect`, called with an empty outputs
vector, returns true and binds the inputs, while `CreateOutputs` returns false
on the same inputs. -/
theorem Connect_accepts_rejected_label :
    scoresTwo.data.samples = 2 ∧ scoresTwo.data.elements = 4 ∧
    (∃ M, Connect (fun _ => 0) (fresh ["a", "b"] 2)
        [some scoresTwo, some scoresTwo, some weightsTwo] [] = .ok (true, M) ∧
      M.second_ = some scoresTwo) ∧
    ((fresh ["a", "b"] 2).CreateOutputs
        [some scoresTwo, some scoresTwo, some weightsTwo] []).1 = false :=
  ⟨rfl, rfl, ⟨bound ["a", "b"] 2 scoresTwo scoresTwo weightsTwo, by decide, rfl⟩, by decide⟩

/-! ## Label addressing -/

/-- C18, the failing input: the label tensor `labelsTwo` (two samples, one
element per sample, so of width 1) is accepted by `CreateOutputs`, and the
address `data_ptr_const(1)` that `FeedForward` uses for sample 1 is
`Offset(x = 1, y = 0, map = 0, sample = 0)`: under `TENSORDEBUG` the range
test `x >= width` fires and the call is fatal, so that `FeedForward` itself is
fatal. Without `TENSORDEBUG` the address is element 1, which is also the
canonical offset `Offset(0, 0, 0, 1)` of the sample. -/
theorem label_address_fails_range_test :
    (twoClass.CreateOutputs [some scoresTwo, some labelsTwo, some weightsTwo] []).1 = true ∧
    labelsTwo.data.elements = labelsTwo.data.samples ∧ 1 < labelsTwo.data.samples ∧
    labelsTwo.data.data_ptr_const true 1 0 0 0 = .error Fault.fatal ∧
    FeedForward true twoClass = .error Fault.fatal ∧
    labelsTwo.data.data_ptr_const false 1 0 0 0 = .ok 1 ∧
    labelsTwo.data.Offset true 0 0 0 1 = .ok 1 := by
  refine ⟨by decide, by decide, by decide, by decide, by decide!, by decide, by decide⟩

/-! ## Accumulator indexing -/

/-- C19: on an allocated layer of class count `k` with `k * k` representable
in `unsigned int`, for all predicted classes `p < k` and labels `t < k` the
matrix index `FeedForward` computes is `p * k + t`, below `k * k`, and the
per-class index `t` is below `k`; the index determines the pair, and a round
of updates for one pair leaves the cell of every other pair as it was. A label
`t >= k` makes the round fault on an index outside a block; a predicted class
`p >= k` (with `t < k`) gives a matrix index that is outside the matrix or is
the index of a different pair. Neither `Connect` nor `CreateOutputs` tests the
classes: both return true for a 2-class layer on inputs whose sample has
predicted class 2 and label 2, and `FeedForward` then writes outside the
matrix. -/
theorem index_in_range_alias_free (L : ConfusionMatrixLayer) (hA : L.Allocated)
    (hk : L.classes_ * L.classes_ < UINT_MOD) :
    (∀ p t, p < L.classes_ → t < L.classes_ →
      addU (mulU p L.classes_) t = p * L.classes_ + t ∧
      p * L.classes_ + t < L.classes_ * L.classes_ ∧ t < L.classes_) ∧
    (∀ p t p' t', p < L.classes_ → t < L.classes_ → p' < L.classes_ → t' < L.classes_ →
      addU (mulU p L.classes_) t = addU (mulU p' L.classes_) t' → p = p' ∧ t = t') ∧
    (∀ r : Reading, r.first_class < L.classes_ → r.second_class < L.classes_ →
      ∃ M, accumulate L r = .ok M ∧
        ∀ p t, p < L.classes_ → t < L.classes_ →
          ¬ (r.first_class = p ∧ r.second_class = t) → cell M p t = cell L p t) ∧
    (∀ r : Reading, L.classes_ ≤ r.second_class →
      accumulate L r = .error Fault.outOfBounds) ∧
    (∀ r : Reading, L.classes_ ≤ r.first_class → r.second_class < L.classes_ →
      L.classes_ * L.classes_ ≤ addU (mulU r.first_class L.classes_) r.second_class ∨
      ∃ p t, p < L.classes_ ∧ t < L.classes_ ∧ p ≠ r.first_class ∧
        addU (mulU r.first_class L.classes_) r.second_class = p * L.classes_ + t) ∧
    (Connect (fun _ => 0) (fresh ["a", "b"] 2)
        [some scoresThree, some labelsThree, some weightsOne] [] = .ok (true, twoClassOver) ∧
      ((fresh ["a", "b"] 2).CreateOutputs
        [some scoresThree, some labelsThree, some weightsOne] []).1 = true ∧
      readSample false twoClassOver 0 = .ok ⟨2, 2, 1⟩ ∧
      FeedForward false twoClassOver = .error Fault.outOfBounds) := by
  refine ⟨?_, ?_, ?_, ?_, ?_, ⟨by decide, by decide, by decide!, by decide!⟩⟩
  · intro p t hp ht
    obtain ⟨e, l⟩ := index_exact hk hp ht
    exact ⟨e, l, ht⟩
  · intro p t p' t' hp ht hp' ht' h
    rw [(index_exact hk hp ht).1, (index_exact hk hp' ht').1] at h
    exact index_injective ht ht' h
  · intro r hp ht
    obtain ⟨M, hM, _, hc, _⟩ := accumulate_spec L r hA hk hp ht
    refine ⟨M, hM, ?_⟩
    intro p t hp' ht' hne
    obtain ⟨v, hv, hv'⟩ := hc p t hp' ht'
    rw [hv, hv', if_neg hne, add_zero]
  · intro r ht
    obtain ⟨⟨m, hm, _⟩, ⟨q, hq, hql⟩⟩ := hA
    have hq' : q[r.second_class]? = none := List.getElem?_eq_none (by omega)
    by_cases hi : addU (mulU r.first_class L.classes_) r.second_class < m.length
    · simp only [accumulate, hm, hq, addAt_some m _ r.weight hi]
      simp only [addAt, loadAt, hq']
    · have hm' : m[addU (mulU r.first_class L.classes_) r.second_class]? = none :=
        List.getElem?_eq_none (by omega)
      simp only [accumulate, hm, addAt, loadAt, hm']
  · intro r _ _
    by_cases h : L.classes_ * L.classes_ ≤ addU (mulU r.first_class L.classes_) r.second_class
    · exact Or.inl h
    · right
      have hlt : addU (mulU r.first_class L.classes_) r.second_class
          < L.classes_ * L.classes_ := by omega
      have hpos : 0 < L.classes_ := by
        rcases Nat.eq_zero_or_pos L.classes_ with h0 | h0
        · rw [h0] at hlt; simp at hlt
        · exact h0
      refine ⟨addU (mulU r.first_class L.classes_) r.second_class / L.classes_,
        addU (mulU r.first_class L.classes_) r.second_class % L.classes_,
        (Nat.div_lt_iff_lt_mul hpos).2 hlt, Nat.mod_lt _ hpos, ?_, ?_⟩
      · have := (Nat.div_lt_iff_lt_mul hpos).2 hlt
        omega
      · rw [Nat.mul_comm]
        exact (Nat.div_add_mod _ _).symm

/-- C19 at the 2-class layer. -/
theorem index_in_range_alias_free_witness :
    twoClass.Allocated ∧ twoClass.classes_ * twoClass.classes_ < UINT_MOD ∧
    (∀ p t, p < 2 → t < 2 →
      addU (mulU p 2) t = p * 2 + t ∧ p * 2 + t < 2 * 2 ∧ t < 2) ∧
    (∀ p t p' t', p < 2 → t < 2 → p' < 2 → t' < 2 →
      addU (mulU p 2) t = addU (mulU p' 2) t' → p = p' ∧ t = t') :=
  have h := index_in_range_alias_free twoClass (bound_allocated _ _ _ _ _) (by decide)
  ⟨bound_allocated _ _ _ _ _, by decide, h.1, h.2.1⟩

end ConfusionMatrixLayer

/-! ## PrintCSV -/

theorem intercalate_go_append (s : String) (l : List String) :
    ∀ (acc x : String),
      String.intercalate.go (acc ++ x) s l = acc ++ String.intercalate.go x s l := by
  induction l with
  | nil =>
    intro acc x
    rfl
  | cons a rest ih =>
    intro acc x
    simp only [String.intercalate.go]
    rw [← ih acc (x ++ s ++ a)]
    simp only [String.append_assoc]

/-- Joining with a separator, one item at a time. -/
theorem intercalate_cons_cons (s a b : String) (l : List String) :
    s.intercalate (a :: b :: l) = a ++ s ++ s.intercalate (b :: l) := by
  simp only [String.intercalate, String.intercalate.go]
  rw [intercalate_go_append s l (a ++ s) b]

/-- A loop that writes its items with a comma after each but the last returns
the items joined by commas. -/
theorem forLoop_join (body : Nat → String → Except Fault String) (item : Nat → String)
    (k n : Nat) :
    ∀ (i : Nat) (acc : String), i + n = k →
      (∀ j, j < n → ∀ acc, body (i + j) acc =
        .ok (if i + j + 1 < k then acc ++ item (i + j) ++ "," else acc ++ item (i + j))) →
      forLoop body n i acc = .ok (acc ++ ",".intercalate ((List.range' i n).map item)) := by
  induction n with
  | zero =>
    intro i acc _ _
    simp [forLoop, String.intercalate]
  | succ n ih =>
    intro i acc hik hb
    have h0 := hb 0 (by omega) acc
    rw [Nat.add_zero] at h0
    have hrest := fun acc' => ih (i + 1) acc' (by omega) (by
      intro j hj acc''
      have := hb (j + 1) (by omega) acc''
      simpa [Nat.add_assoc, Nat.add_comm 1 j] using this)
    cases n with
    | zero =>
      have hlast : ¬ (i + 1 < k) := by omega
      simp only [forLoop, h0, hlast, if_false, List.range'_succ, List.range'_zero,
        List.map_cons, List.map_nil, String.intercalate, String.intercalate.go]
    | succ m =>
      have hmore : i + 1 < k := by omega
      rw [forLoop, h0]
      simp only [hmore, if_true]
      rw [hrest]
      simp only [List.range'_succ, List.map_cons, intercalate_cons_cons, String.append_assoc]

/-- The names of the first `k` classes, read one by one. -/
theorem names_take (names : List String) (k : Nat) (h : k ≤ names.length) :
    (List.range' 0 k).map (fun c => (names[c]?).getD "") = names.take k := by
  apply List.ext_getElem?
  intro j
  by_cases hj : j < k
  · rw [List.getElem?_map, List.getElem?_range' 0 1 hj, List.getElem?_take_of_lt hj]
    simp [List.getElem?_eq_getElem (show j < names.length by omega)]
  · rw [List.getElem?_eq_none (by simp; omega), List.getElem?_eq_none (by simp; omega)]

namespace ConfusionMatrixLayer

/-- With the class count below `2^32`, the test `(c + 1) < classes_` of
`PrintCSV` is the test `c + 1 < classes_` on the integers. -/
theorem succ_lt_classes (k c : Nat) (hk : k < UINT_MOD) (hc : c < k) :
    (addU c 1 < k) = (c + 1 < k) := by
  simp only [addU]
  rw [Nat.mod_eq_of_lt (by omega)]

/-- The header line of `PrintCSV` on a layer with a name for every class. -/
theorem csvCaption_ok (L : ConfusionMatrixLayer) (hk : L.classes_ < UINT_MOD)
    (hnames : L.classes_ ≤ L.names_.length) :
    csvCaption L = .ok ("classified," ++ ",".intercalate (L.names_.take L.classes_)) := by
  rw [csvCaption, forLoop_join _ (fun c => (L.names_[c]?).getD "") L.classes_ L.classes_ 0
    "classified," (by omega) (by
      intro j hj acc
      rw [Nat.zero_add]
      simp only [nameAt_ok L.names_ j (by omega), succ_lt_classes L.classes_ j hk hj]),
    names_take L.names_ L.classes_ hnames]

/-- One table line of `PrintCSV` on an allocated layer. -/
theorem csvLine_ok (L : ConfusionMatrixLayer) (hA : L.Allocated)
    (hk : L.classes_ * L.classes_ < UINT_MOD) (hnames : L.classes_ ≤ L.names_.length)
    (t : Nat) (ht : t < L.classes_) :
    csvLine L t = .ok ((L.names_[t]?).getD "" ++ "," ++
      ",".intercalate ((List.range' 0 L.classes_).map
        (fun c => toString (toLong (matrixVal L t c))))) := by
  have hk' : L.classes_ < UINT_MOD := by nlinarith
  rw [csvLine]
  simp only [nameAt_ok L.names_ t (by omega)]
  rw [forLoop_join _ (fun c => toString (toLong (matrixVal L t c))) L.classes_ L.classes_ 0
    ((L.names_[t]?).getD "" ++ ",") (by omega) (by
      intro j hj acc
      rw [Nat.zero_add]
      have := cell_ok L hA hk t j ht hj
      simp only [cell] at this
      simp only [this, succ_lt_classes L.classes_ j hk' hj])]

/-- On an allocated layer with `k * k` representable and a name for every
class, `PrintCSV` returns, and these are its lines. -/
theorem PrintCSV_lines (L : ConfusionMatrixLayer) (hA : L.Allocated)
    (hk : L.classes_ * L.classes_ < UINT_MOD) (hnames : L.classes_ ≤ L.names_.length) :
    PrintCSV L = .ok (("classified," ++ ",".intercalate (L.names_.take L.classes_)) ::
      (List.range' 0 L.classes_).map (fun t => (L.names_[t]?).getD "" ++ "," ++
        ",".intercalate ((List.range' 0 L.classes_).map
          (fun c => toString (toLong (matrixVal L t c)))))) := by
  have hk' : L.classes_ < UINT_MOD := by nlinarith
  have hlines : csvLines L = .ok ((List.range' 0 L.classes_).map
      (fun t => (L.names_[t]?).getD "" ++ "," ++
        ",".intercalate ((List.range' 0 L.classes_).map
          (fun c => toString (toLong (matrixVal L t c)))))) := by
    rw [csvLines]
    rw [forLoop_collect _ (fun t => (L.names_[t]?).getD "" ++ "," ++
        ",".intercalate ((List.range' 0 L.classes_).map
          (fun c => toString (toLong (matrixVal L t c))))) L.classes_ 0 [] (by
      intro j hj acc
      rw [Nat.zero_add]
      simp only [csvLine_ok L hA hk hnames j hj])]
    rfl
  simp only [PrintCSV, csvCaption_ok L hk' hnames, hlines]

end ConfusionMatrixLayer

/-- A loop whose first round faults, faults. -/
theorem forLoop_first_error {σ : Type} (body : Nat → σ → Except Fault σ) (n i : Nat)
    (s : σ) (e : Fault) (hn : 0 < n) (h : body i s = .error e) :
    forLoop body n i s = .error e := by
  cases n with
  | zero => exact absurd hn (by omega)
  | succ m => simp only [forLoop, h]

namespace ConfusionMatrixLayer

/-- C12, as amended: on an allocated layer of class count `k` with `k * k`
below `2^32` and a name for every class, `PrintCSV` returns and writes exactly
`k + 1` lines. The first is `classified,` followed by the names of the `k`
classes joined by single commas. For each `r < k`, line `r + 1` is `names[r]`,
a comma, and the conversions to `long` of the cells `(r, 0), ..., (r, k - 1)`
joined by single commas; whenever every cell of the row, truncated toward
zero, is a value of a 64-bit `long` (between `-2^63` and `2^63 - 1`), these
are the truncated values of the cells. The cell shown in row `r`, field `c`
is the cell a round of `FeedForward` increments for predicted class `r` and
true class `c`. -/
theorem PrintCSV_format (L : ConfusionMatrixLayer) (hA : L.Allocated)
    (hk : L.classes_ * L.classes_ < UINT_MOD) (hnames : L.classes_ ≤ L.names_.length) :
    ∃ lines, PrintCSV L = .ok lines ∧ lines.length = L.classes_ + 1 ∧
      lines[0]? = some ("classified," ++ ",".intercalate (L.names_.take L.classes_)) ∧
      (∀ r, r < L.classes_ → ∃ name, L.names_[r]? = some name ∧
        lines[r + 1]? = some (name ++ "," ++ ",".intercalate
          ((List.range L.classes_).map (fun c => toString (toLong (matrixVal L r c))))) ∧
        ((∀ c, c < L.classes_ →
            LONG_MIN ≤ truncate (matrixVal L r c) ∧ truncate (matrixVal L r c) ≤ LONG_MAX) →
          lines[r + 1]? = some (name ++ "," ++ ",".intercalate
            ((List.range L.classes_).map
              (fun c => toString (truncate (matrixVal L r c))))))) ∧
      (∀ r c, r < L.classes_ → c < L.classes_ →
        cell L r c = .ok (matrixVal L r c) ∧
        ∀ w, ∃ M, accumulate L ⟨r, c, w⟩ = .ok M ∧
          cell M r c = .ok (matrixVal L r c + w)) := by
  refine ⟨_, PrintCSV_lines L hA hk hnames, by simp, by simp, ?_, ?_⟩
  · intro r hr
    have hr' : r < L.names_.length := by omega
    have hline : ((("classified," ++ ",".intercalate (L.names_.take L.classes_)) ::
        (List.range' 0 L.classes_).map (fun t =>
          (L.names_[t]?).getD "" ++ "," ++ ",".intercalate
            ((List.range' 0 L.classes_).map
              (fun c => toString (toLong (matrixVal L t c))))))[r + 1]?) =
        some (L.names_[r] ++ "," ++ ",".intercalate
          ((List.range L.classes_).map (fun c => toString (toLong (matrixVal L r c))))) := by
      simp [List.getElem?_range' 0 1 hr, List.getElem?_eq_getElem hr', List.range_eq_range']
    refine ⟨L.names_[r], List.getElem?_eq_getElem hr', hline, ?_⟩
    intro hin
    rw [hline]
    have hmap : (List.range L.classes_).map (fun c => toString (toLong (matrixVal L r c)))
        = (List.range L.classes_).map (fun c => toString (truncate (matrixVal L r c))) := by
      apply List.map_congr_left
      intro c hc
      rw [toLong_in_range _ (hin c (List.mem_range.1 hc)).1 (hin c (List.mem_range.1 hc)).2]
    rw [hmap]
  · intro r c hr hc
    refine ⟨cell_ok L hA hk r c hr hc, ?_⟩
    intro w
    obtain ⟨M, hM, _, hcell, _⟩ := accumulate_spec L ⟨r, c, w⟩ hA hk hr hc
    obtain ⟨v, hv, hv'⟩ := hcell r c hr hc
    refine ⟨M, hM, ?_⟩
    have hval : v = matrixVal L r c := by
      rw [cell_ok L hA hk r c hr hc] at hv
      injection hv with hv
      exact hv.symm
    rw [hv', hval]
    simp

/-- C12 at the 2-class layer after its two samples. -/
theorem PrintCSV_format_witness :
    PrintCSV twoClassFed = .ok ["classified,a,b", "a,0,2", "b,0,1"] ∧
    ∃ lines, PrintCSV twoClassFed = .ok lines ∧ lines.length = 2 + 1 ∧
      lines[0]? = some ("classified," ++ ",".intercalate (["a", "b"].take 2)) ∧
      lines[1]? = some ("a" ++ "," ++ ",".intercalate
        ((List.range 2).map (fun c => toString (truncate (matrixVal twoClassFed 0 c))))) := by
  obtain ⟨lines, h, hl, h0, hrow, _⟩ := PrintCSV_format twoClassFed
    ⟨⟨_, rfl, rfl⟩, ⟨_, rfl, rfl⟩⟩ (by decide) (by decide)
  obtain ⟨name, hname, _, htr⟩ := hrow 0 (by decide)
  have e : name = "a" := by
    have h' : twoClassFed.names_[0]? = some "a" := rfl
    rw [h'] at hname
    injection hname with hname
    exact hname.symm
  subst e
  refine ⟨by decide!, lines, h, hl, h0, htr ?_⟩
  intro c hc
  have hc' : c = 0 ∨ c = 1 := by
    have : c < 2 := hc
    omega
  rcases hc' with rfl | rfl
  · exact (by decide! : LONG_MIN ≤ truncate (matrixVal twoClassFed 0 0) ∧
      truncate (matrixVal twoClassFed 0 0) ≤ LONG_MAX)
  · exact (by decide! : LONG_MIN ≤ truncate (matrixVal twoClassFed 0 1) ∧
      truncate (matrixVal twoClassFed 0 1) ≤ LONG_MAX)

/-- A bound layer of 65536 classes, each with a name, has a matrix of no
cells, and `PrintCSV` reads outside it on the first table line. -/
theorem PrintCSV_wideClass :
    wideClass.classes_ ≤ wideClass.names_.length ∧
    PrintCSV wideClass = .error Fault.outOfBounds := by
  have hnames : wideClass.classes_ ≤ wideClass.names_.length :=
    le_of_eq (List.length_replicate _ _).symm
  have hlen : wideClass.names_.length = 65536 := List.length_replicate _ _
  have hcap := csvCaption_ok wideClass (by decide) hnames
  have hload : loadAt wideClass.matrix_ (addU (mulU 0 wideClass.classes_) 0)
      = .error Fault.outOfBounds := by
    have h : mulU 65536 65536 = 0 := by decide
    simp only [wideClass, bound, h, List.replicate_zero]
    rfl
  have hline : csvLine wideClass 0 = .error Fault.outOfBounds := by
    rw [csvLine]
    simp only [nameAt_ok wideClass.names_ 0 (by rw [hlen]; decide)]
    exact forLoop_first_error _ _ _ _ _ (by decide) (by simp only [hload])
  have hlines : csvLines wideClass = .error Fault.outOfBounds := by
    rw [csvLines]
    exact forLoop_first_error _ _ _ _ _ (by decide) (by simp only [hline])
  exact ⟨hnames, by rw [PrintCSV, hcap, hlines]⟩

/-- C12 as stated fails. A bound layer of 65536 classes, each with a name, has
a matrix of no cells, and `PrintCSV` reads outside it on the first table line
instead of writing 65537 lines. And a 1-class layer after one sample
(predicted 0, true 0) of weight `2^63` holds `2^63` in its cell, which is not
a value of `long`: `PrintCSV` writes the line `a,-9223372036854775808`, while
the cell truncated toward zero is `9223372036854775808`. -/
theorem PrintCSV_wide_or_huge :
    (wideClass.Allocated ∧ wideClass.classes_ = 65536 ∧
      wideClass.classes_ ≤ wideClass.names_.length ∧
      PrintCSV wideClass = .error Fault.outOfBounds) ∧
    (FeedForward false oneClassHuge = .ok oneClassHugeFed ∧
      oneClassHugeFed.Allocated ∧ oneClassHugeFed.classes_ = 1 ∧
      oneClassHugeFed.classes_ ≤ oneClassHugeFed.names_.length ∧
      cell oneClassHugeFed 0 0 = .ok 9223372036854775808 ∧
      PrintCSV oneClassHugeFed = .ok ["classified,a", "a,-9223372036854775808"] ∧
      toString (truncate (matrixVal oneClassHugeFed 0 0)) = "9223372036854775808") :=
  ⟨⟨bound_allocated _ _ _ _ _, rfl, PrintCSV_wideClass.1, PrintCSV_wideClass.2⟩,
    ⟨by decide!, ⟨⟨_, rfl, rfl⟩, ⟨_, rfl, rfl⟩⟩, rfl, by decide, by decide!, by decide!,
      by decide!⟩⟩

end ConfusionMatrixLayer

/-! ## Lemmas on sequences of calls -/

namespace ConfusionMatrixLayer

/-- A round of updates does not look at the bound inputs. -/
theorem accumulate_refill (L : ConfusionMatrixLayer) (a b c : CombinedTensor) (r : Reading) :
    accumulate (refill L a b c) r =
      match accumulate L r with
      | .ok M => .ok (refill M a b c)
      | .error e => .error e := by
  simp only [accumulate, refill]
  cases addAt L.matrix_ (addU (mulU r.first_class L.classes_) r.second_class) r.weight with
  | error e => rfl
  | ok m =>
    cases addAt L.per_class_ r.second_class r.weight with
    | error e => rfl
    | ok q => rfl

theorem feedAll_refill (a b c : CombinedTensor) (batch : List Reading) :
    ∀ (L : ConfusionMatrixLayer), feedAll (refill L a b c) batch =
      match feedAll L batch with
      | .ok M => .ok (refill M a b c)
      | .error e => .error e := by
  induction batch with
  | nil =>
    intro L
    rfl
  | cons r rest ih =>
    intro L
    simp only [feedAll, accumulate_refill]
    cases accumulate L r with
    | error e => rfl
    | ok M => exact ih M

/-- The rounds over a concatenation are the rounds over its parts, in order. -/
theorem feedAll_append (A B : List Reading) :
    ∀ (L : ConfusionMatrixLayer), feedAll L (A ++ B) =
      match feedAll L A with
      | .ok M => feedAll M B
      | .error e => .error e := by
  induction A with
  | nil =>
    intro L
    rfl
  | cons r rest ih =>
    intro L
    simp only [List.cons_append, feedAll]
    cases accumulate L r with
    | error e => rfl
    | ok M => exact ih M

theorem weightSum_append (keep : Reading → Bool) (A B : List Reading) :
    weightSum keep (A ++ B) = weightSum keep A + weightSum keep B := by
  simp [weightSum]

/-- An enabled `FeedForward` on refilled tensors that hold a batch of fewer
than `2^32` samples is `feedAll` on the batch, with the tensors bound. -/
theorem FeedForward_refill (tensordebug : Bool) (L : ConfusionMatrixLayer)
    (a b c : CombinedTensor) (batch : List Reading)
    (henabled : L.disabled_ = false) (hfit : batch.length < UINT_MOD)
    (hold : Holds tensordebug a b c batch) :
    FeedForward tensordebug (refill L a b c) =
      match feedAll L batch with
      | .ok M => .ok (refill M a b c)
      | .error e => .error e := by
  rw [FeedForward_eq_feedAll tensordebug (refill L a b c) a batch henabled rfl hold.1 hfit
    (hold.2 L), feedAll_refill]

/-- Two allocated layers of the same class count whose matrix cells agree have
the same matrix block. -/
theorem matrix_ext (M N : ConfusionMatrixLayer) (hM : M.Allocated) (hN : N.Allocated)
    (hc : N.classes_ = M.classes_) (hk : M.classes_ * M.classes_ < UINT_MOD)
    (h : ∀ p t, p < M.classes_ → t < M.classes_ → cell M p t = cell N p t) :
    M.matrix_ = N.matrix_ := by
  obtain ⟨⟨m, hm, hml⟩, _⟩ := hM
  obtain ⟨⟨n, hn, hnl⟩, _⟩ := hN
  have hml' : m.length = M.classes_ * M.classes_ := by rw [hml, mulU, Nat.mod_eq_of_lt hk]
  have hnl' : n.length = M.classes_ * M.classes_ := by
    rw [hnl, hc, mulU, Nat.mod_eq_of_lt hk]
  rw [hm, hn]
  congr 1
  apply List.ext_getElem (by omega)
  intro i hi hi'
  have hlt : i < M.classes_ * M.classes_ := by omega
  have hpos : 0 < M.classes_ := by
    rcases Nat.eq_zero_or_pos M.classes_ with h0 | h0
    · rw [h0] at hlt; simp at hlt
    · exact h0
  have hp : i / M.classes_ < M.classes_ := (Nat.div_lt_iff_lt_mul hpos).2 hlt
  have ht : i % M.classes_ < M.classes_ := Nat.mod_lt _ hpos
  have hidx : i / M.classes_ * M.classes_ + i % M.classes_ = i := by
    rw [Nat.mul_comm]; exact Nat.div_add_mod _ _
  have e := (index_exact hk hp ht).1
  have hcell := h _ _ hp ht
  simp only [cell, hm, hn, hc, e, hidx, loadAt_some m i hi, loadAt_some n i hi'] at hcell
  injection hcell

/-- Two allocated layers of the same class count whose per-class cells agree
have the same per-class block. -/
theorem per_class_ext (M N : ConfusionMatrixLayer) (hM : M.Allocated) (hN : N.Allocated)
    (hc : N.classes_ = M.classes_)
    (h : ∀ t, t < M.classes_ → perClass M t = perClass N t) :
    M.per_class_ = N.per_class_ := by
  obtain ⟨_, ⟨q, hq, hql⟩⟩ := hM
  obtain ⟨_, ⟨u, hu, hul⟩⟩ := hN
  rw [hq, hu]
  congr 1
  apply List.ext_getElem (by omega)
  intro i hi hi'
  have hcell := h i (by omega)
  simp only [perClass, hq, hu, loadAt_some q i hi, loadAt_some u i hi'] at hcell
  injection hcell

/-- The rounds over a batch and over a reordering by parts end with the same
accumulators. -/
theorem feedAll_comm (A B : List Reading) (L : ConfusionMatrixLayer) (hA : L.Allocated)
    (hk : L.classes_ * L.classes_ < UINT_MOD)
    (hrA : ∀ r ∈ A, r.first_class < L.classes_ ∧ r.second_class < L.classes_)
    (hrB : ∀ r ∈ B, r.first_class < L.classes_ ∧ r.second_class < L.classes_) :
    ∃ M N, feedAll L (A ++ B) = .ok M ∧ feedAll L (B ++ A) = .ok N ∧
      M.matrix_ = N.matrix_ ∧ M.per_class_ = N.per_class_ ∧
      M.total_ = N.total_ ∧ M.right_ = N.right_ := by
  obtain ⟨M, hM, hAM, cM, qM, tM, rM⟩ := feedAll_spec (A ++ B) L hA hk (by
    intro r hr
    rcases List.mem_append.1 hr with h | h
    · exact hrA r h
    · exact hrB r h)
  obtain ⟨N, hN, hAN, cN, qN, tN, rN⟩ := feedAll_spec (B ++ A) L hA hk (by
    intro r hr
    rcases List.mem_append.1 hr with h | h
    · exact hrB r h
    · exact hrA r h)
  obtain ⟨hcM, _⟩ := feedAll_frame _ L M hM
  obtain ⟨hcN, _⟩ := feedAll_frame _ L N hN
  refine ⟨M, N, hM, hN, ?_, ?_, ?_, ?_⟩
  · apply matrix_ext M N hAM hAN (by rw [hcN, hcM]) (by rw [hcM]; exact hk)
    intro p t hp ht
    rw [hcM] at hp ht
    obtain ⟨v, hv, hv1⟩ := cM p t hp ht
    obtain ⟨v', hv', hv2⟩ := cN p t hp ht
    have : v' = v := by
      rw [hv] at hv'
      injection hv' with h
      exact h.symm
    rw [hv1, hv2, this, weightSum_append, weightSum_append, add_comm (weightSum _ A)]
  · apply per_class_ext M N hAM hAN (by rw [hcN, hcM])
    intro t ht
    rw [hcM] at ht
    obtain ⟨v, hv, hv1⟩ := qM t ht
    obtain ⟨v', hv', hv2⟩ := qN t ht
    have : v' = v := by
      rw [hv] at hv'
      injection hv' with h
      exact h.symm
    rw [hv1, hv2, this, weightSum_append, weightSum_append, add_comm (weightSum _ A)]
  · rw [tM, tN, weightSum_append, weightSum_append, add_comm (weightSum _ A)]
  · rw [rM, rN, weightSum_append, weightSum_append, add_comm (weightSum _ A)]

end ConfusionMatrixLayer

namespace ConfusionMatrixLayer

/-- The reads of `FeedForward` look only at the three bound tensors, so a
batch is held as soon as the reads on one layer bound to them return it. -/
theorem holds_of_reads (tensordebug : Bool) (a b c : CombinedTensor) (batch : List Reading)
    (hn : a.data.samples = batch.length)
    (h : ∀ s (hs : s < batch.length),
      readSample tensordebug (refill (fresh [] 0) a b c) s = .ok batch[s]) :
    Holds tensordebug a b c batch :=
  ⟨hn, fun L s hs => by
    rw [readSample_congr tensordebug (refill (fresh [] 0) a b c) (refill L a b c) s rfl rfl rfl]
    exact h s hs⟩

theorem holds_one : Holds false scoresOne labelsOne weightsOne [⟨0, 0, 1⟩] := by
  refine holds_of_reads _ _ _ _ _ rfl ?_
  intro s hs
  have hs' : s = 0 := by
    simp only [List.length_cons, List.length_nil] at hs
    omega
  subst hs'
  exact (by decide! :
    readSample false (refill (fresh [] 0) scoresOne labelsOne weightsOne) 0 = .ok ⟨0, 0, 1⟩)

theorem holds_pair :
    Holds false scoresPair labelsPair weightsPair [⟨0, 0, 1⟩, ⟨0, 0, 1⟩] := by
  refine holds_of_reads _ _ _ _ _ rfl ?_
  intro s hs
  have hs' : s = 0 ∨ s = 1 := by
    simp only [List.length_cons, List.length_nil] at hs
    omega
  rcases hs' with rfl | rfl
  · exact (by decide! :
      readSample false (refill (fresh [] 0) scoresPair labelsPair weightsPair) 0
        = .ok ⟨0, 0, 1⟩)
  · exact (by decide! :
      readSample false (refill (fresh [] 0) scoresPair labelsPair weightsPair) 1
        = .ok ⟨0, 0, 1⟩)

/-- C14, as amended: on an enabled layer whose two blocks are allocated as
`Connect` leaves them and whose class count `k` has `k * k < 2^32`, for two
batches `A` and `B` with every predicted class and label below `k` and fewer
than `2^32` samples together, the five forward passes (on `A`, then on `B`; on
`B`, then on `A`; on the concatenation of `A` and `B`) all return, and the
three final states have the same matrix, per-class totals, total and correct
total. Weights are exact numbers. -/
theorem FeedForward_additive (tensordebug : Bool) (L : ConfusionMatrixLayer)
    (a1 b1 c1 a2 b2 c2 a3 b3 c3 : CombinedTensor) (A B : List Reading)
    (henabled : L.disabled_ = false) (hA : L.Allocated)
    (hk : L.classes_ * L.classes_ < UINT_MOD)
    (h1 : Holds tensordebug a1 b1 c1 A) (h2 : Holds tensordebug a2 b2 c2 B)
    (h3 : Holds tensordebug a3 b3 c3 (A ++ B))
    (hfit : (A ++ B).length < UINT_MOD)
    (hrA : ∀ r ∈ A, r.first_class < L.classes_ ∧ r.second_class < L.classes_)
    (hrB : ∀ r ∈ B, r.first_class < L.classes_ ∧ r.second_class < L.classes_) :
    ∃ MA MAB MB MBA MC,
      FeedForward tensordebug (refill L a1 b1 c1) = .ok MA ∧
      FeedForward tensordebug (refill MA a2 b2 c2) = .ok MAB ∧
      FeedForward tensordebug (refill L a2 b2 c2) = .ok MB ∧
      FeedForward tensordebug (refill MB a1 b1 c1) = .ok MBA ∧
      FeedForward tensordebug (refill L a3 b3 c3) = .ok MC ∧
      (MAB.matrix_ = MBA.matrix_ ∧ MAB.per_class_ = MBA.per_class_ ∧
        MAB.total_ = MBA.total_ ∧ MAB.right_ = MBA.right_) ∧
      (MAB.matrix_ = MC.matrix_ ∧ MAB.per_class_ = MC.per_class_ ∧
        MAB.total_ = MC.total_ ∧ MAB.right_ = MC.right_) := by
  have hlen : A.length + B.length < UINT_MOD := by
    rw [List.length_append] at hfit
    exact hfit
  obtain ⟨M, N, hM, hN, em, eq, et, er⟩ := feedAll_comm A B L hA hk hrA hrB
  obtain ⟨MA0, hMA0, -⟩ := feedAll_spec A L hA hk hrA
  obtain ⟨MB0, hMB0, -⟩ := feedAll_spec B L hA hk hrB
  have hAB : feedAll MA0 B = .ok M := by
    rw [feedAll_append, hMA0] at hM
    exact hM
  have hBA : feedAll MB0 A = .ok N := by
    rw [feedAll_append, hMB0] at hN
    exact hN
  have dA : MA0.disabled_ = false := by
    rw [(feedAll_frame A L MA0 hMA0).2.2.1]
    exact henabled
  have dB : MB0.disabled_ = false := by
    rw [(feedAll_frame B L MB0 hMB0).2.2.1]
    exact henabled
  refine ⟨refill MA0 a1 b1 c1, refill M a2 b2 c2, refill MB0 a2 b2 c2, refill N a1 b1 c1,
    refill M a3 b3 c3, ?_, ?_, ?_, ?_, ?_, ⟨em, eq, et, er⟩, ⟨rfl, rfl, rfl, rfl⟩⟩
  · rw [FeedForward_refill tensordebug L a1 b1 c1 A henabled (by omega) h1, hMA0]
  · have e : refill (refill MA0 a1 b1 c1) a2 b2 c2 = refill MA0 a2 b2 c2 := rfl
    rw [e, FeedForward_refill tensordebug MA0 a2 b2 c2 B dA (by omega) h2, hAB]
  · rw [FeedForward_refill tensordebug L a2 b2 c2 B henabled (by omega) h2, hMB0]
  · have e : refill (refill MB0 a2 b2 c2) a1 b1 c1 = refill MB0 a1 b1 c1 := rfl
    rw [e, FeedForward_refill tensordebug MB0 a1 b1 c1 A dB (by omega) h1, hBA]
  · rw [FeedForward_refill tensordebug L a3 b3 c3 (A ++ B) henabled hfit h3, hM]

/-- C14 at a 1-class layer in the zero state: one sample (predicted 0, true 0,
weight 1) as `A`, the same as `B`, and the two together as the
concatenation. -/
theorem FeedForward_additive_witness :
    ∃ MA MAB MB MBA MC,
      FeedForward false (refill (bound ["a"] 1 scoresOne labelsOne weightsOne)
        scoresOne labelsOne weightsOne) = .ok MA ∧
      FeedForward false (refill MA scoresOne labelsOne weightsOne) = .ok MAB ∧
      FeedForward false (refill (bound ["a"] 1 scoresOne labelsOne weightsOne)
        scoresOne labelsOne weightsOne) = .ok MB ∧
      FeedForward false (refill MB scoresOne labelsOne weightsOne) = .ok MBA ∧
      FeedForward false (refill (bound ["a"] 1 scoresOne labelsOne weightsOne)
        scoresPair labelsPair weightsPair) = .ok MC ∧
      (MAB.matrix_ = MBA.matrix_ ∧ MAB.per_class_ = MBA.per_class_ ∧
        MAB.total_ = MBA.total_ ∧ MAB.right_ = MBA.right_) ∧
      (MAB.matrix_ = MC.matrix_ ∧ MAB.per_class_ = MC.per_class_ ∧
        MAB.total_ = MC.total_ ∧ MAB.right_ = MC.right_) :=
  FeedForward_additive false (bound ["a"] 1 scoresOne labelsOne weightsOne)
    scoresOne labelsOne weightsOne scoresOne labelsOne weightsOne
    scoresPair labelsPair weightsPair [⟨0, 0, 1⟩] [⟨0, 0, 1⟩]
    rfl (bound_allocated _ _ _ _ _) (by decide) holds_one holds_one holds_pair
    (by decide) (by decide) (by decide)

/-- C14 as stated fails: on a bound, enabled layer of 65536 classes in the
zero state, whose matrix has `65536 * 65536 mod 2^32 = 0` cells, the batch of
one sample (predicted 0, true 0, weight 1) has its classes in range and is
held by the bound tensors, and the forward pass on it writes outside the
matrix: no pass on `A` followed by `B`, on `B` followed by `A` or on their
concatenation yields a state. -/
theorem FeedForward_wide_no_sum :
    wideClass.classes_ = 65536 ∧ wideClass.Allocated ∧ wideClass.disabled_ = false ∧
    Holds false scoresOne labelsOne weightsOne [⟨0, 0, 1⟩] ∧
    Holds false scoresPair labelsPair weightsPair ([⟨0, 0, 1⟩] ++ [⟨0, 0, 1⟩]) ∧
    (∀ r ∈ [(⟨0, 0, 1⟩ : Reading)],
      r.first_class < wideClass.classes_ ∧ r.second_class < wideClass.classes_) ∧
    FeedForward false (refill wideClass scoresOne labelsOne weightsOne)
      = .error Fault.outOfBounds ∧
    FeedForward false (refill wideClass scoresPair labelsPair weightsPair)
      = .error Fault.outOfBounds :=
  ⟨rfl, bound_allocated _ _ _ _ _, rfl, holds_one, holds_pair, by decide, by decide!,
    by decide!⟩

end ConfusionMatrixLayer

/-! ## Lemmas on the accumulator invariants -/

theorem sum_col_ite (k a b t : Nat) (w : ℚ) (ha : a < k) :
    (∑ p ∈ Finset.range k, if a = p ∧ b = t then w else 0) = if b = t then w else 0 := by
  by_cases hb : b = t
  · simp [hb, Finset.sum_ite_eq, ha]
  · simp [hb]

theorem sum_diag_ite (k a b : Nat) (w : ℚ) (ha : a < k) :
    (∑ c ∈ Finset.range k, if a = c ∧ b = c then w else 0) = if a = b then w else 0 := by
  by_cases hb : a = b
  · subst hb
    simp [Finset.sum_ite_eq, ha]
  · have : ∀ c, ¬ (a = c ∧ b = c) := fun c h => hb (h.1.trans h.2.symm)
    simp [this, hb]

theorem sum_one_ite (k b : Nat) (w : ℚ) (hb : b < k) :
    (∑ c ∈ Finset.range k, if b = c then w else 0) = w := by
  simp [Finset.sum_ite_eq, hb]

theorem sum_pair_ite (k a b : Nat) (w : ℚ) (ha : a < k) (hb : b < k) :
    (∑ p ∈ Finset.range k, ∑ t ∈ Finset.range k, if a = p ∧ b = t then w else 0) = w := by
  rw [Finset.sum_comm]
  simp only [sum_col_ite k a b _ w ha]
  exact sum_one_ite k b w hb

/-- A list of numbers between 0 and 1 has a sum between 0 and its length. -/
theorem sum_unit_bounds (l : List ℚ) (h : ∀ x ∈ l, 0 ≤ x ∧ x ≤ 1) :
    0 ≤ l.sum ∧ l.sum ≤ (l.length : ℚ) := by
  induction l with
  | nil => simp
  | cons x rest ih =>
    obtain ⟨h0, h1⟩ := h x (by simp)
    obtain ⟨i0, i1⟩ := ih (fun y hy => h y (by simp [hy]))
    simp only [List.sum_cons, List.length_cons, Nat.cast_add, Nat.cast_one]
    constructor <;> linarith

namespace ConfusionMatrixLayer

theorem addAt_length (a b : List ℚ) (i : Nat) (w : ℚ) (h : addAt (some a) i w = .ok b) :
    b.length = a.length := by
  by_cases hi : i < a.length
  · rw [addAt_some a i w hi] at h
    injection h with h
    subst h
    simp
  · simp [addAt, loadAt, List.getElem?_eq_none (by omega : a.length ≤ i)] at h

/-- A round of updates that returns keeps the two blocks allocated. -/
theorem accumulate_allocated (L M : ConfusionMatrixLayer) (r : Reading) (hA : L.Allocated)
    (h : accumulate L r = .ok M) : M.Allocated := by
  obtain ⟨⟨m, hm, hml⟩, ⟨q, hq, hql⟩⟩ := hA
  simp only [accumulate, hm, hq] at h
  split at h
  · exact absurd h (by simp)
  · rename_i m' hm'
    split at h
    · exact absurd h (by simp)
    · rename_i q' hq'
      injection h with h
      subst h
      exact ⟨⟨m', rfl, by rw [addAt_length m m' _ _ hm', hml]⟩,
        ⟨q', rfl, by rw [addAt_length q q' _ _ hq', hql]⟩⟩

theorem feedAll_allocated (batch : List Reading) :
    ∀ (L M : ConfusionMatrixLayer), L.Allocated → feedAll L batch = .ok M → M.Allocated := by
  induction batch with
  | nil =>
    intro L M hA h
    simp only [feedAll] at h
    injection h with h
    subst h
    exact hA
  | cons r rest ih =>
    intro L M hA h
    simp only [feedAll] at h
    split at h
    · rename_i L1 h1
      exact ih L1 M (accumulate_allocated L L1 r hA h1) h
    · exact absurd h (by simp)

/-- An enabled `FeedForward` that returns had fewer than `2^32` samples to
visit. -/
theorem FeedForward_ok_fit (tensordebug : Bool) (L M : ConfusionMatrixLayer)
    (first : CombinedTensor) (henabled : L.disabled_ = false) (hfirst : L.first_ = some first)
    (h : FeedForward tensordebug L = .ok M) : first.data.samples < UINT_MOD := by
  simp only [FeedForward, henabled, hfirst, Bool.false_eq_true, if_false] at h
  split at h
  · exact absurd h (by simp)
  · split at h
    · assumption
    · exact absurd h (by simp)

/-- An enabled `FeedForward` on refilled tensors that returns is the rounds of
`feedAll` on the batch they hold. -/
theorem FeedForward_refill_ok (tensordebug : Bool) (L M : ConfusionMatrixLayer)
    (a b c : CombinedTensor) (batch : List Reading)
    (henabled : L.disabled_ = false) (hold : Holds tensordebug a b c batch)
    (h : FeedForward tensordebug (refill L a b c) = .ok M) :
    ∃ M0, feedAll L batch = .ok M0 ∧ M = refill M0 a b c := by
  have hfit := FeedForward_ok_fit tensordebug (refill L a b c) M a henabled rfl h
  rw [hold.1] at hfit
  rw [FeedForward_refill tensordebug L a b c batch henabled hfit hold] at h
  rcases hf : feedAll L batch with e | M0
  · rw [hf] at h
    exact absurd h (by simp)
  · rw [hf] at h
    injection h with h
    exact ⟨M0, rfl, h.symm⟩

theorem zero_val (n i : Nat) :
    (match loadAt (some (List.replicate n (0 : ℚ))) i with
      | .ok v => v
      | .error _ => 0) = 0 := by
  by_cases hi : i < n
  · rw [loadAt_some _ i (by simpa using hi)]
    simp
  · simp [loadAt, List.getElem?_eq_none (by simp; omega : (List.replicate n (0 : ℚ)).length ≤ i)]

/-- The state `Reset` leaves is allocated, consistent and non-negative. -/
theorem zero_state (L : ConfusionMatrixLayer)
    (hm : L.matrix_ = some (List.replicate (mulU L.classes_ L.classes_) 0))
    (hq : L.per_class_ = some (List.replicate L.classes_ 0))
    (ht : L.total_ = 0) (hr : L.right_ = 0) :
    L.Allocated ∧ Consistent L ∧ NonNegative L := by
  have hmv : ∀ p t, matrixVal L p t = 0 := by
    intro p t
    simp only [matrixVal, cell, hm]
    exact zero_val _ _
  have hqv : ∀ t, perClassVal L t = 0 := by
    intro t
    simp only [perClassVal, perClass, hq]
    exact zero_val _ _
  refine ⟨⟨⟨_, hm, List.length_replicate _ _⟩, ⟨_, hq, List.length_replicate _ _⟩⟩, ?_, ?_⟩
  · refine ⟨?_, ?_, ?_, ?_⟩
    · simp [ht, hqv]
    · simp [ht, hmv]
    · intro t _
      simp [hqv, hmv]
    · simp [hr, hmv]
  · intro p t _ _
    rw [hmv]

/-- The values one round of updates leaves, on an allocated layer with
in-range classes. -/
theorem accumulate_vals (L M : ConfusionMatrixLayer) (r : Reading) (hA : L.Allocated)
    (hk : L.classes_ * L.classes_ < UINT_MOD)
    (hp : r.first_class < L.classes_) (ht : r.second_class < L.classes_)
    (h : accumulate L r = .ok M) :
    M.classes_ = L.classes_ ∧
    (∀ p t, p < L.classes_ → t < L.classes_ →
      matrixVal M p t = matrixVal L p t +
        if r.first_class = p ∧ r.second_class = t then r.weight else 0) ∧
    (∀ t, t < L.classes_ →
      perClassVal M t = perClassVal L t + if r.second_class = t then r.weight else 0) ∧
    M.total_ = L.total_ + r.weight ∧
    M.right_ = L.right_ + (if r.first_class = r.second_class then r.weight else 0) := by
  obtain ⟨M0, h0, _, c, q, t, rr⟩ := accumulate_spec L r hA hk hp ht
  have e : M0 = M := by
    rw [h0] at h
    injection h
  subst e
  refine ⟨(accumulate_frame L M0 r h0).1, ?_, ?_, t, rr⟩
  · intro p t hp' ht'
    obtain ⟨v, hv, hv'⟩ := c p t hp' ht'
    simp only [matrixVal, hv, hv']
  · intro t ht'
    obtain ⟨v, hv, hv'⟩ := q t ht'
    simp only [perClassVal, hv, hv']

theorem Consistent_accumulate (L M : ConfusionMatrixLayer) (r : Reading) (hA : L.Allocated)
    (hk : L.classes_ * L.classes_ < UINT_MOD)
    (hp : r.first_class < L.classes_) (ht : r.second_class < L.classes_)
    (hC : Consistent L) (h : accumulate L r = .ok M) : Consistent M := by
  obtain ⟨hcl, hm, hq, htot, hright⟩ := accumulate_vals L M r hA hk hp ht h
  obtain ⟨c1, c2, c3, c4⟩ := hC
  have em : ∀ p ∈ Finset.range L.classes_, ∀ t ∈ Finset.range L.classes_,
      matrixVal M p t = matrixVal L p t +
        if r.first_class = p ∧ r.second_class = t then r.weight else 0 :=
    fun p hp' t ht' => hm p t (Finset.mem_range.1 hp') (Finset.mem_range.1 ht')
  have eq : ∀ t ∈ Finset.range L.classes_,
      perClassVal M t = perClassVal L t + if r.second_class = t then r.weight else 0 :=
    fun t ht' => hq t (Finset.mem_range.1 ht')
  refine ⟨?_, ?_, ?_, ?_⟩
  · rw [hcl, Finset.sum_congr rfl eq, Finset.sum_add_distrib, sum_one_ite _ _ _ ht, htot, c1]
  · rw [hcl, Finset.sum_congr rfl (fun p hp' => Finset.sum_congr rfl (em p hp'))]
    simp only [Finset.sum_add_distrib]
    rw [sum_pair_ite _ _ _ _ hp ht, htot, c2]
  · intro t ht'
    rw [hcl] at ht'
    rw [hcl, Finset.sum_congr rfl (fun p hp' => em p hp' t (Finset.mem_range.2 ht')),
      Finset.sum_add_distrib, sum_col_ite _ _ _ _ _ hp, hq t ht', c3 t ht']
  · rw [hcl, Finset.sum_congr rfl (fun c hc => em c hc c hc), Finset.sum_add_distrib,
      sum_diag_ite _ _ _ _ hp, hright, c4]

theorem NonNegative_accumulate (L M : ConfusionMatrixLayer) (r : Reading) (hA : L.Allocated)
    (hk : L.classes_ * L.classes_ < UINT_MOD)
    (hp : r.first_class < L.classes_) (ht : r.second_class < L.classes_)
    (hw : 0 ≤ r.weight) (hN : NonNegative L) (h : accumulate L r = .ok M) :
    NonNegative M := by
  obtain ⟨hcl, hm, _⟩ := accumulate_vals L M r hA hk hp ht h
  intro p t hp' ht'
  rw [hcl] at hp' ht'
  rw [hm p t hp' ht']
  have := hN p t hp' ht'
  split_ifs
  · linarith
  · linarith

/-- The rounds of `FeedForward` on in-range readings keep the accumulators
consistent, and non-negative when no weight is negative. -/
theorem feedAll_invariants (batch : List Reading) :
    ∀ (L M : ConfusionMatrixLayer), L.Allocated → L.classes_ * L.classes_ < UINT_MOD →
      (∀ r ∈ batch, r.first_class < L.classes_ ∧ r.second_class < L.classes_) →
      feedAll L batch = .ok M →
      (Consistent L → Consistent M) ∧
      ((∀ r ∈ batch, 0 ≤ r.weight) → NonNegative L → NonNegative M) := by
  induction batch with
  | nil =>
    intro L M _ _ _ h
    simp only [feedAll] at h
    injection h with h
    subst h
    exact ⟨id, fun _ => id⟩
  | cons r rest ih =>
    intro L M hA hk hr h
    simp only [feedAll] at h
    split at h
    · rename_i L1 h1
      obtain ⟨hp, ht⟩ := hr r (by simp)
      have hcl := (accumulate_frame L L1 r h1).1
      obtain ⟨i1, i2⟩ := ih L1 M (accumulate_allocated L L1 r hA h1)
        (by rw [hcl]; exact hk)
        (by
          intro x hx
          rw [hcl]
          exact hr x (by simp [hx])) h
      refine ⟨fun hC => i1 (Consistent_accumulate L L1 r hA hk hp ht hC h1), ?_⟩
      intro hw hN
      exact i2 (fun x hx => hw x (by simp [hx]))
        (NonNegative_accumulate L L1 r hA hk hp ht (hw r (by simp)) hN h1)
    · exact absurd h (by simp)

/-- In every reachable state the two blocks are allocated, and with `k * k`
representable the accumulators are consistent, and non-negative when no weight
is negative. -/
theorem reachable_invariants (tensordebug : Bool) (extra : Reading → Prop)
    (M : ConfusionMatrixLayer) (hR : Reachable tensordebug extra M) :
    M.Allocated ∧ (M.classes_ * M.classes_ < UINT_MOD →
      Consistent M ∧ ((∀ r, extra r → 0 ≤ r.weight) → NonNegative M)) := by
  induction hR with
  | connect uninit L M inputs outputs h =>
    by_cases h3 : inputs.length = 3
    · match inputs, h3 with
      | [a, b, c], _ =>
        rw [Connect_three] at h
        rcases hv : valid a b c outputs with e | v
        · rw [hv] at h
          exact absurd h (by simp)
        · cases v
          · rw [hv] at h
            simp only [Except.ok.injEq, Prod.mk.injEq] at h
            exact absurd h.1 (by simp)
          · rw [hv] at h
            simp only [Except.ok.injEq, Prod.mk.injEq, true_and] at h
            subst h
            obtain ⟨z1, z2, z3⟩ := zero_state { L with
              first_ := a, second_ := b, third_ := c,
              matrix_ := some (List.replicate (mulU L.classes_ L.classes_) 0),
              per_class_ := some (List.replicate L.classes_ 0),
              total_ := 0, right_ := 0 } rfl rfl rfl rfl
            exact ⟨z1, fun _ => ⟨z2, fun _ => z3⟩⟩
    · rw [Connect_not_three uninit L inputs outputs h3] at h
      simp only [Except.ok.injEq, Prod.mk.injEq] at h
      exact absurd h.1 (by simp)
  | reset L M _ h ih =>
    rw [Reset_allocated L ih.1] at h
    injection h with h
    subst h
    obtain ⟨z1, z2, z3⟩ := zero_state { L with
      matrix_ := some (List.replicate (mulU L.classes_ L.classes_) 0),
      per_class_ := some (List.replicate L.classes_ 0),
      total_ := 0, right_ := 0 } rfl rfl rfl rfl
    exact ⟨z1, fun _ => ⟨z2, fun _ => z3⟩⟩
  | feed L M a b c batch _ henabled hold hrange h ih =>
    obtain ⟨M0, hf, e⟩ := FeedForward_refill_ok tensordebug L M a b c batch henabled hold h
    subst e
    have hcl := (feedAll_frame batch L M0 hf).1
    have hA0 : M0.Allocated := feedAll_allocated batch L M0 ih.1 hf
    refine ⟨hA0, ?_⟩
    intro hk
    have hkL : L.classes_ * L.classes_ < UINT_MOD := by
      rw [← hcl]
      exact hk
    obtain ⟨i1, i2⟩ := feedAll_invariants batch L M0 ih.1 hkL
      (fun r hr => ⟨(hrange r hr).1, (hrange r hr).2.1⟩) hf
    obtain ⟨hC, hN⟩ := ih.2 hkL
    exact ⟨i1 hC, fun hw => i2 (fun r hr => hw r (hrange r hr).2.2) (hN hw)⟩

end ConfusionMatrixLayer

/-! ## Lemmas on the concrete states -/

theorem Tensor.argmaxFrom_zeros (m : Nat) :
    ∀ (idx best : Nat),
      Tensor.argmaxFrom (List.replicate m 0 ++ [1]) idx best 0 = idx + m := by
  induction m with
  | zero =>
    intro idx best
    simp [Tensor.argmaxFrom]
  | succ m ih =>
    intro idx best
    simp only [List.replicate_succ, List.cons_append, Tensor.argmaxFrom, gt_iff_lt,
      lt_self_iff_false, if_false]
    change Tensor.argmaxFrom (List.replicate m 0 ++ [1]) (idx + 1) best 0 = _
    rw [ih]
    omega

theorem Tensor.argmax_zeros (n : Nat) : Tensor.argmax (List.replicate n 0 ++ [1]) = n := by
  cases n with
  | zero => simp [Tensor.argmax, Tensor.argmaxFrom]
  | succ m =>
    simp only [List.replicate_succ, List.cons_append, Tensor.argmax]
    rw [Tensor.argmaxFrom_zeros]
    omega

/-- The highest score of `scoresLast n` is on class `n`. -/
theorem Maximum_scoresLast (n : Nat) : (scoresLast n).data.Maximum 0 = .ok n := by
  have hlen : (List.replicate n (Datum.ofVal 0) ++ [Datum.ofVal 1]).length = n + 1 := by
    simp
  simp only [Tensor.Maximum, scoresLast, CombinedTensor.ofData, Tensor.ofCells, Nat.zero_mul,
    List.drop_zero, Nat.mul_one]
  rw [List.take_of_length_le (by rw [hlen])]
  simp only [hlen, lt_self_iff_false, if_false, List.map_append, List.map_replicate,
    List.map_cons, List.map_nil, Datum.ofVal]
  rw [Tensor.argmax_zeros, if_neg (by simp)]

namespace ConfusionMatrixLayer

theorem holds_two : Holds false scoresTwo labelsTwo weightsTwo [⟨0, 1, 2⟩, ⟨1, 1, 1⟩] := by
  refine holds_of_reads _ _ _ _ _ rfl ?_
  intro s hs
  have hs' : s = 0 ∨ s = 1 := by
    simp only [List.length_cons, List.length_nil] at hs
    omega
  rcases hs' with rfl | rfl
  · exact (by decide! :
      readSample false (refill (fresh [] 0) scoresTwo labelsTwo weightsTwo) 0
        = .ok ⟨0, 1, 2⟩)
  · exact (by decide! :
      readSample false (refill (fresh [] 0) scoresTwo labelsTwo weightsTwo) 1
        = .ok ⟨1, 1, 1⟩)

/-- The 2-class layer after its two samples is reachable. -/
theorem twoClassFed_reachable (extra : Reading → Prop) (h1 : extra ⟨0, 1, 2⟩)
    (h2 : extra ⟨1, 1, 1⟩) : Reachable false extra twoClassFed := by
  have hc : Reachable false extra twoClass :=
    Reachable.connect (fun _ => 0) (fresh ["a", "b"] 2) twoClass
      [some scoresTwo, some labelsTwo, some weightsTwo] [] (by
        rw [Connect_three]
        rfl)
  refine Reachable.feed twoClass twoClassFed scoresTwo labelsTwo weightsTwo
    [⟨0, 1, 2⟩, ⟨1, 1, 1⟩] hc rfl holds_two ?_ (by decide!)
  intro r hr
  simp only [List.mem_cons, List.mem_singleton, List.not_mem_nil, or_false] at hr
  rcases hr with rfl | rfl
  · exact ⟨by decide, by decide, h1⟩
  · exact ⟨by decide, by decide, h2⟩

/-- The tensors of the sample (predicted `n`, label 2, weight 1) hold it. -/
theorem holds_last (n : Nat) (hn : n < UINT_MOD) :
    Holds false (scoresLast n) labelsThree weightsOne [⟨n, 2, 1⟩] := by
  refine holds_of_reads _ _ _ _ _ rfl ?_
  intro s hs
  have hs' : s = 0 := by
    simp only [List.length_cons, List.length_nil] at hs
    omega
  subst hs'
  have h1 : labelsThree.data.data_ptr_const false 0 0 0 0 = .ok 0 := by decide!
  have h2 : labelsThree.data.readDuint 0 = .ok 2 := by decide!
  have h3 : weightsOne.data.elementAt false 0 = .ok (Datum.ofVal 1) := by decide!
  show readSample false (refill (fresh [] 0) (scoresLast n) labelsThree weightsOne) 0
    = .ok ⟨n, 2, 1⟩
  simp only [readSample, refill, Maximum_scoresLast, h1, h2, h3, Nat.mod_eq_of_lt hn]
  rfl

theorem holds_alias :
    Holds false (scoresLast 65536) labelsThree weightsOne [⟨65536, 2, 1⟩] :=
  holds_last 65536 (by decide)

/-- The 65537-class layer is what a successful `Connect` leaves. -/
theorem aliasClass_reachable (extra : Reading → Prop) : Reachable false extra aliasClass :=
  Reachable.connect (fun _ => 0) (fresh (List.replicate 65537 "c") 65537) aliasClass
    [some (scoresLast 65536), some labelsThree, some weightsOne] [] (by
      rw [Connect_three]
      rfl)

/-- Over a matrix block without a negative cell, no value read is negative. -/
theorem matrixVal_nonneg (M : ConfusionMatrixLayer) (a : List ℚ) (hm : M.matrix_ = some a)
    (h : ∀ x ∈ a, 0 ≤ x) (p t : Nat) : 0 ≤ matrixVal M p t := by
  rw [matrixVal, cell, hm]
  by_cases hi : addU (mulU p M.classes_) t < a.length
  · rw [loadAt_some a _ hi]
    exact h _ (List.getElem_mem _)
  · simp [loadAt, List.getElem?_eq_none (by omega : a.length ≤ addU (mulU p M.classes_) t)]

theorem aliasClass_matrix : aliasClass.matrix_ = some (List.replicate 131073 0) := by
  have hk : mulU 65537 65537 = 131073 := by decide
  rw [← hk]
  rfl

theorem aliasClass_per_class : aliasClass.per_class_ = some (List.replicate 65537 0) := rfl

theorem alias_index : 65538 < (List.replicate 131073 (0 : ℚ)).length := by
  rw [List.length_replicate]
  decide

theorem alias_label : 2 < (List.replicate 65537 (0 : ℚ)).length := by
  rw [List.length_replicate]
  decide

theorem alias_matrix_add : addAt (some (List.replicate 131073 0)) 65538 1
    = .ok ((List.replicate 131073 0).set 65538 1) := by
  rw [addAt_some _ _ _ alias_index, List.getElem_replicate, zero_add]

theorem alias_per_class_add : addAt (some (List.replicate 65537 0)) 2 1
    = .ok ((List.replicate 65537 0).set 2 1) := by
  rw [addAt_some _ _ _ alias_label, List.getElem_replicate, zero_add]

/-- The round of updates for the sample (predicted 65536, label 2, weight 1)
on a 65537-class layer in the zero state: the cell index `65536 * 65537 + 2`
wraps to 65538. -/
theorem alias_accumulate (L : ConfusionMatrixLayer) (hcl : L.classes_ = 65537)
    (hm : L.matrix_ = some (List.replicate 131073 0))
    (hq : L.per_class_ = some (List.replicate 65537 0)) :
    accumulate L ⟨65536, 2, 1⟩ = .ok { L with
      matrix_ := some ((List.replicate 131073 0).set 65538 1),
      per_class_ := some ((List.replicate 65537 0).set 2 1),
      total_ := L.total_ + 1, right_ := L.right_ } := by
  have hidx : addU (mulU 65536 65537) 2 = 65538 := by decide
  have hne : ¬ ((65536 : Nat) = 2) := by decide
  simp only [accumulate, hm, hq, hcl, hidx, alias_matrix_add, alias_per_class_add, hne,
    if_false]

theorem alias_forward (L : ConfusionMatrixLayer) (hd : L.disabled_ = false)
    (hcl : L.classes_ = 65537)
    (hm : L.matrix_ = some (List.replicate 131073 0))
    (hq : L.per_class_ = some (List.replicate 65537 0)) :
    FeedForward false (refill L (scoresLast 65536) labelsThree weightsOne)
      = .ok (refill { L with
      matrix_ := some ((List.replicate 131073 0).set 65538 1),
      per_class_ := some ((List.replicate 65537 0).set 2 1),
      total_ := L.total_ + 1, right_ := L.right_ }
      (scoresLast 65536) labelsThree weightsOne) := by
  rw [FeedForward_refill false L _ _ _ [⟨65536, 2, 1⟩] hd (by decide) holds_alias]
  simp only [feedAll, alias_accumulate L hcl hm hq]

/-- The forward pass of the 65537-class layer on its sample (predicted 65536,
label 2, weight 1): the weight goes to cell 65538 of the matrix, the cell of
the pair `(1, 1)`. -/
theorem alias_feed :
    ∃ M, FeedForward false (refill aliasClass (scoresLast 65536) labelsThree weightsOne)
        = .ok M ∧
      M.classes_ = 65537 ∧
      M.matrix_ = some ((List.replicate 131073 0).set 65538 1) ∧
      M.per_class_ = some ((List.replicate 65537 0).set 2 1) ∧
      M.total_ = 1 ∧ M.right_ = 0 :=
  ⟨_, alias_forward aliasClass rfl rfl aliasClass_matrix aliasClass_per_class, rfl, rfl, rfl,
    zero_add 1, rfl⟩

/-- What the state after the aliased update reads: the diagonal cell `(1, 1)`
holds 1, the per-class total of class 1 is 0, and no cell is negative. -/
theorem alias_reads (M : ConfusionMatrixLayer) (hcl : M.classes_ = 65537)
    (hm : M.matrix_ = some ((List.replicate 131073 0).set 65538 1))
    (hq : M.per_class_ = some ((List.replicate 65537 0).set 2 1)) :
    cell M 1 1 = .ok 1 ∧ perClass M 1 = .ok 0 ∧ perClass M 2 = .ok 1 ∧
      ∀ p t, 0 ≤ matrixVal M p t := by
  have hidx : addU (mulU 1 65537) 1 = 65538 := by decide
  have h1 : 1 < (List.replicate 65537 (0 : ℚ)).length := by
    rw [List.length_replicate]
    decide
  refine ⟨?_, ?_, ?_, ?_⟩
  · rw [cell, hm, hcl, hidx, loadAt_set _ _ _ _ alias_index alias_index, if_pos rfl]
  · rw [perClass, hq, loadAt_set _ _ _ _ alias_label h1, if_neg (by decide),
      List.getElem_replicate]
  · rw [perClass, hq, loadAt_set _ _ _ _ alias_label alias_label, if_pos rfl]
  · refine matrixVal_nonneg M _ hm ?_
    intro x hx
    rcases List.mem_or_eq_of_mem_set hx with h | h
    · rw [List.eq_of_mem_replicate h]
    · rw [h]
      norm_num

end ConfusionMatrixLayer

namespace ConfusionMatrixLayer

theorem zero_perClassVal (L : ConfusionMatrixLayer) (n : Nat)
    (hq : L.per_class_ = some (List.replicate n 0)) (t : Nat) : perClassVal L t = 0 := by
  simp only [perClassVal, perClass, hq]
  exact zero_val _ _

/-! ## The accumulator invariants -/

/-- C16, as amended: in every state reachable from a successful `Connect` by
`Reset` and enabled `FeedForward` calls in which every predicted class and
every label is below the class count `k`, provided `k * k < 2^32`, every
matrix cell `(p, t)` and per-class cell `c` with `p, t, c < k` exists, the
total equals the sum of `per_class[c]` over the classes and the sum of all
matrix cells, `per_class[t]` equals the sum over `p` of `matrix[p][t]`, and
the correct total equals the sum of the diagonal cells. Weights are exact
numbers. -/
theorem accumulators_consistent (tensordebug : Bool) (M : ConfusionMatrixLayer)
    (hR : Reachable tensordebug (fun _ => True) M)
    (hk : M.classes_ * M.classes_ < UINT_MOD) :
    (∀ p t, p < M.classes_ → t < M.classes_ → cell M p t = .ok (matrixVal M p t)) ∧
    (∀ c, c < M.classes_ → perClass M c = .ok (perClassVal M c)) ∧
    M.total_ = ∑ c ∈ Finset.range M.classes_, perClassVal M c ∧
    M.total_ = ∑ p ∈ Finset.range M.classes_, ∑ t ∈ Finset.range M.classes_,
      matrixVal M p t ∧
    (∀ t, t < M.classes_ →
      perClassVal M t = ∑ p ∈ Finset.range M.classes_, matrixVal M p t) ∧
    M.right_ = ∑ c ∈ Finset.range M.classes_, matrixVal M c c := by
  obtain ⟨hA, hinv⟩ := reachable_invariants tensordebug _ M hR
  obtain ⟨⟨c1, c2, c3, c4⟩, _⟩ := hinv hk
  exact ⟨fun p t hp ht => cell_ok M hA hk p t hp ht, fun c hc => perClass_ok M hA c hc,
    c1, c2, c3, c4⟩

/-- C16 at the 2-class layer after the samples (predicted 0, true 1,
weight 2) and (predicted 1, true 1, weight 1). -/
theorem accumulators_consistent_witness :
    Reachable false (fun _ => True) twoClassFed ∧
    twoClassFed.classes_ * twoClassFed.classes_ < UINT_MOD ∧
    twoClassFed.total_ = ∑ c ∈ Finset.range twoClassFed.classes_, perClassVal twoClassFed c ∧
    twoClassFed.right_ = ∑ c ∈ Finset.range twoClassFed.classes_, matrixVal twoClassFed c c :=
  ⟨twoClassFed_reachable _ trivial trivial, by decide,
    (accumulators_consistent false twoClassFed (twoClassFed_reachable _ trivial trivial)
      (by decide)).2.2.1,
    (accumulators_consistent false twoClassFed (twoClassFed_reachable _ trivial trivial)
      (by decide)).2.2.2.2.2⟩

/-- C16 as stated fails: a layer of 65537 classes is connected (its matrix has
`65537 * 65537 mod 2^32 = 131073` cells) and runs one enabled `FeedForward` on
the sample (predicted 65536, label 2, weight 1), both classes below the class
count. The cell index `65536 * 65537 + 2` wraps to 65538, the index of the
diagonal cell `(1, 1)`, inside the matrix. In the state reached
`matrix[1][1] = 1` while the correct total is 0 and `per_class[1] = 0`: the
correct total is not the sum of the diagonal cells, and `per_class[1]` is not
the sum of column 1. -/
theorem accumulators_alias_inconsistent :
    ∃ M, Reachable false (fun _ => True) M ∧
      FeedForward false (refill aliasClass (scoresLast 65536) labelsThree weightsOne)
        = .ok M ∧
      Holds false (scoresLast 65536) labelsThree weightsOne [⟨65536, 2, 1⟩] ∧
      M.classes_ = 65537 ∧
      cell M 1 1 = .ok 1 ∧ perClass M 1 = .ok 0 ∧ M.total_ = 1 ∧ M.right_ = 0 ∧
      M.right_ ≠ ∑ c ∈ Finset.range M.classes_, matrixVal M c c ∧
      perClassVal M 1 ≠ ∑ p ∈ Finset.range M.classes_, matrixVal M p 1 := by
  obtain ⟨M, hF, hcl, hm, hq, ht, hr⟩ := alias_feed
  obtain ⟨c11, p1, _, nn⟩ := alias_reads M hcl hm hq
  have hreach : Reachable false (fun _ => True) M :=
    Reachable.feed aliasClass M _ _ _ [⟨65536, 2, 1⟩] (aliasClass_reachable _) rfl holds_alias
      (by
        intro r hr
        simp only [List.mem_singleton] at hr
        subst hr
        exact ⟨(by decide : 65536 < 65537), (by decide : 2 < 65537), trivial⟩) hF
  have h1 : 1 ∈ Finset.range M.classes_ := Finset.mem_range.2 (by rw [hcl]; decide)
  have v11 : matrixVal M 1 1 = 1 := by simp only [matrixVal, c11]
  have vp1 : perClassVal M 1 = 0 := by simp only [perClassVal, p1]
  have hdiag : matrixVal M 1 1 ≤ ∑ c ∈ Finset.range M.classes_, matrixVal M c c :=
    Finset.single_le_sum (fun c _ => nn c c) h1
  have hcol : matrixVal M 1 1 ≤ ∑ p ∈ Finset.range M.classes_, matrixVal M p 1 :=
    Finset.single_le_sum (fun p _ => nn p 1) h1
  refine ⟨M, hreach, hF, holds_alias, hcl, c11, p1, ht, hr, ?_, ?_⟩
  · intro h
    rw [← h, hr, v11] at hdiag
    exact absurd hdiag (by norm_num)
  · intro h
    rw [← h, vp1, v11] at hcol
    exact absurd hcol (by norm_num)

end ConfusionMatrixLayer

namespace ConfusionMatrixLayer

/-- The two numbers `Print` divides by, as its loop leaves them: `sum` gathers
the ratios and `ccount` counts the classes whose per-class total is
positive. -/
theorem rateLoop_ok (L : ConfusionMatrixLayer) (hA : L.Allocated)
    (hk : L.classes_ * L.classes_ < UINT_MOD) :
    rateLoop L = .ok
      ((((List.range' 0 L.classes_).filter
          (fun c => decide (perClassVal L c > 0))).map
            (fun c => matrixVal L c c / perClassVal L c)).sum,
        (((List.range' 0 L.classes_).filter
          (fun c => decide (perClassVal L c > 0))).length : ℚ)) := by
  have hrate := rate_loop L hA hk L.classes_ 0 (0, 0) (by omega)
  simp only [zero_add] at hrate
  simp only [rateLoop, hrate]

/-- C17, as amended: in every state reachable from a successful `Connect` by
`Reset` and enabled `FeedForward` calls with non-negative weights and every
predicted class and label below the class count `k`, provided `k * k < 2^32`:
`0 <= right <= total`, and `0 <= matrix[c][c] <= per_class[c]` for every
class `c`; whenever `total > 0`, some class has `per_class[c] > 0`, the loop
of `Print` returns a pair `(sum, ccount)` with `ccount` nonzero, `total` is
nonzero, and both quotients `100 * right / total` and `100 * sum / ccount`
lie between 0 and 100. After `Reset`, `total = 0`, the loop of `Print` leaves
`ccount = 0`, and neither quotient is a number. Weights are exact numbers. -/
theorem rates_bounded (tensordebug : Bool) (M : ConfusionMatrixLayer)
    (hR : Reachable tensordebug (fun r => 0 ≤ r.weight) M)
    (hk : M.classes_ * M.classes_ < UINT_MOD) :
    (0 ≤ M.right_ ∧ M.right_ ≤ M.total_) ∧
    (∀ c, c < M.classes_ →
      ∃ d q, cell M c c = .ok d ∧ perClass M c = .ok q ∧ 0 ≤ d ∧ d ≤ q) ∧
    (0 < M.total_ →
      (∃ c q, c < M.classes_ ∧ perClass M c = .ok q ∧ 0 < q) ∧
      ∃ sum ccount u n, rateLoop M = .ok (sum, ccount) ∧ M.total_ ≠ 0 ∧ ccount ≠ 0 ∧
        fdiv (100 * M.right_) M.total_ = some u ∧ fdiv (100 * sum) ccount = some n ∧
        0 ≤ u ∧ u ≤ 100 ∧ 0 ≤ n ∧ n ≤ 100) ∧
    (∃ N, Reset M = .ok N ∧ N.total_ = 0 ∧ rateLoop N = .ok (0, 0) ∧
      fdiv (100 * N.right_) N.total_ = none ∧ fdiv (100 * 0) 0 = none) := by
  obtain ⟨hA, hinv⟩ := reachable_invariants tensordebug _ M hR
  obtain ⟨⟨c1, c2, c3, c4⟩, hN⟩ := hinv hk
  have hN := hN (fun r h => h)
  have hr0 : 0 ≤ M.right_ := by
    rw [c4]
    exact Finset.sum_nonneg (fun c hc => hN c c (Finset.mem_range.1 hc) (Finset.mem_range.1 hc))
  have hrt : M.right_ ≤ M.total_ := by
    rw [c4, c2]
    apply Finset.sum_le_sum
    intro c hc
    exact (Finset.single_le_sum
      (fun t ht => hN c t (Finset.mem_range.1 hc) (Finset.mem_range.1 ht)) hc :
        matrixVal M c c ≤ ∑ t ∈ Finset.range M.classes_, matrixVal M c t)
  have hdq : ∀ c, c < M.classes_ → matrixVal M c c ≤ perClassVal M c := by
    intro c hc
    rw [c3 c hc]
    exact (Finset.single_le_sum
      (fun p hp => hN p c (Finset.mem_range.1 hp) hc) (Finset.mem_range.2 hc) :
        matrixVal M c c ≤ ∑ p ∈ Finset.range M.classes_, matrixVal M p c)
  refine ⟨⟨hr0, hrt⟩, ?_, ?_, ?_⟩
  · intro c hc
    exact ⟨_, _, cell_ok M hA hk c c hc hc, perClass_ok M hA c hc, hN c c hc hc, hdq c hc⟩
  · intro hpos
    have hex : ∃ c, c < M.classes_ ∧ 0 < perClassVal M c := by
      by_contra h
      push_neg at h
      have : ∑ c ∈ Finset.range M.classes_, perClassVal M c ≤ 0 :=
        Finset.sum_nonpos (fun c hc => h c (Finset.mem_range.1 hc))
      rw [← c1] at this
      linarith
    obtain ⟨c0, hc0, hq0⟩ := hex
    have hmem : c0 ∈ (List.range' 0 M.classes_).filter
        (fun c => decide (perClassVal M c > 0)) := by
      rw [List.mem_filter]
      refine ⟨?_, by simpa using hq0⟩
      rw [List.mem_range']
      exact ⟨c0, hc0, by omega⟩
    have hlen : (0 : ℚ) < (((List.range' 0 M.classes_).filter
        (fun c => decide (perClassVal M c > 0))).length : ℚ) := by
      exact_mod_cast List.length_pos_of_mem hmem
    obtain ⟨s0, s1⟩ := sum_unit_bounds
      (((List.range' 0 M.classes_).filter
        (fun c => decide (perClassVal M c > 0))).map
          (fun c => matrixVal M c c / perClassVal M c)) (by
        intro x hx
        rw [List.mem_map] at hx
        obtain ⟨c, hc, rfl⟩ := hx
        rw [List.mem_filter] at hc
        obtain ⟨hcr, hcp⟩ := hc
        have hck : c < M.classes_ := by
          rw [List.mem_range'] at hcr
          obtain ⟨i, hi, e⟩ := hcr
          omega
        have hp : 0 < perClassVal M c := by simpa using hcp
        exact ⟨div_nonneg (hN c c hck hck) (le_of_lt hp), (div_le_one hp).2 (hdq c hck)⟩)
    rw [List.length_map] at s1
    have hrl := rateLoop_ok M hA hk
    generalize (((List.range' 0 M.classes_).filter
        (fun c => decide (perClassVal M c > 0))).map
          (fun c => matrixVal M c c / perClassVal M c)).sum = sum at hrl s0 s1
    generalize (((List.range' 0 M.classes_).filter
        (fun c => decide (perClassVal M c > 0))).length : ℚ) = ccount at hrl s1 hlen
    refine ⟨⟨c0, _, hc0, perClass_ok M hA c0 hc0, hq0⟩, sum, ccount,
      100 * M.right_ / M.total_, 100 * sum / ccount, hrl,
      ne_of_gt hpos, ne_of_gt hlen, ?_, ?_, ?_, ?_, ?_, ?_⟩
    · simp only [fdiv, ne_of_gt hpos, if_false]
    · simp only [fdiv, ne_of_gt hlen, if_false]
    · exact div_nonneg (mul_nonneg (by norm_num) hr0) (le_of_lt hpos)
    · rw [div_le_iff₀ hpos]
      linarith
    · exact div_nonneg (mul_nonneg (by norm_num) s0) (le_of_lt hlen)
    · rw [div_le_iff₀ hlen]
      linarith
  · have hzq : ∀ t, perClassVal { M with
        matrix_ := some (List.replicate (mulU M.classes_ M.classes_) 0),
        per_class_ := some (List.replicate M.classes_ 0),
        total_ := 0, right_ := 0 } t = 0 := zero_perClassVal _ _ rfl
    obtain ⟨z1, _, _⟩ := zero_state { M with
      matrix_ := some (List.replicate (mulU M.classes_ M.classes_) 0),
      per_class_ := some (List.replicate M.classes_ 0),
      total_ := 0, right_ := 0 } rfl rfl rfl rfl
    have hrl := rateLoop_ok _ z1 hk
    simp only [hzq, gt_iff_lt, lt_self_iff_false, decide_False, List.filter_false, List.map_nil,
      List.sum_nil, List.length_nil, Nat.cast_zero] at hrl
    exact ⟨_, Reset_allocated M hA, rfl, hrl, by simp [fdiv], by simp [fdiv]⟩

/-- C17 at the 2-class layer after the samples (predicted 0, true 1,
weight 2) and (predicted 1, true 1, weight 1). -/
theorem rates_bounded_witness :
    Reachable false (fun r => 0 ≤ r.weight) twoClassFed ∧
    twoClassFed.classes_ * twoClassFed.classes_ < UINT_MOD ∧
    (0 ≤ twoClassFed.right_ ∧ twoClassFed.right_ ≤ twoClassFed.total_) ∧
    (∀ c, c < twoClassFed.classes_ →
      ∃ d q, cell twoClassFed c c = .ok d ∧ perClass twoClassFed c = .ok q ∧ 0 ≤ d ∧ d ≤ q) :=
  ⟨twoClassFed_reachable _ (by decide!) (by decide!), by decide,
    (rates_bounded false twoClassFed (twoClassFed_reachable _ (by decide!) (by decide!))
      (by decide)).1,
    (rates_bounded false twoClassFed (twoClassFed_reachable _ (by decide!) (by decide!))
      (by decide)).2.1⟩

/-- C17 as stated fails: a layer of 65537 classes is connected and runs one
enabled `FeedForward` on the sample (predicted 65536, label 2, weight 1), the
weight non-negative and both classes below the class count. The cell index
`65536 * 65537 + 2` wraps to 65538, the index of the diagonal cell `(1, 1)`.
In the state reached the total is 1, `matrix[1][1] = 1` and
`per_class[1] = 0`: the diagonal cell of class 1 exceeds its per-class
total. -/
theorem diagonal_exceeds_per_class :
    ∃ M, Reachable false (fun r => 0 ≤ r.weight) M ∧
      FeedForward false (refill aliasClass (scoresLast 65536) labelsThree weightsOne)
        = .ok M ∧
      M.classes_ = 65537 ∧ 0 < M.total_ ∧
      ∃ d q, cell M 1 1 = .ok d ∧ perClass M 1 = .ok q ∧ q < d := by
  obtain ⟨M, hF, hcl, hm, hq, ht, _⟩ := alias_feed
  obtain ⟨c11, p1, _, _⟩ := alias_reads M hcl hm hq
  have hreach : Reachable false (fun r => 0 ≤ r.weight) M :=
    Reachable.feed aliasClass M _ _ _ [⟨65536, 2, 1⟩] (aliasClass_reachable _) rfl holds_alias
      (by
        intro r hr
        simp only [List.mem_singleton] at hr
        subst hr
        exact ⟨(by decide : 65536 < 65537), (by decide : 2 < 65537),
          (by norm_num : (0 : ℚ) ≤ 1)⟩) hF
  exact ⟨M, hreach, hF, hcl, by rw [ht]; norm_num, 1, 0, c11, p1, by norm_num⟩

end ConfusionMatrixLayer

end Conv
